import Mathlib

/-!
# 0-bundle: bundle lifecycle and sandboxed execution

A shallow embedding of `chroot.go` and `sandbox.go`.

Go strings are modelled as lists of code points (`Str`); texts are assumed to be
valid UTF-8, so that a string and its sequence of runes coincide.
-/

namespace ZBundle

/-- Go `string`, as its sequence of runes. -/
abbrev Str := List Char

/-! ## Library functions used by the sources (`strings`, `bufio`, `path`) -/

/-- Go `unicode.IsSpace`: the Latin-1 cases `\t \n \v \f \r`, space, U+0085, U+00A0 and
the other code points with the `White_Space` property. -/
def isSpace (c : Char) : Bool :=
  let n := c.toNat
  (9 ≤ n && n ≤ 13) || n == 32 || n == 133 || n == 160 || n == 5760 ||
  (8192 ≤ n && n ≤ 8202) || n == 8232 || n == 8233 || n == 8239 || n == 8287 || n == 12288

/-- Go `strings.TrimSpace`: leading, then trailing white space removed. -/
def TrimSpace (s : Str) : Str :=
  (s.dropWhile isSpace).rdropWhile isSpace

/-- Go `strings.HasPrefix`. -/
def HasPrefix (s p : Str) : Bool :=
  p.isPrefixOf s

/-- Go `error` values are kept as their message. -/
abbrev Err := String

/-- Error values of a read: `io.EOF`, or any other error. -/
inductive ReadErr where
  | eof
  | other (msg : Err)
deriving DecidableEq, Repr

/-- An `io.Reader` over a text: it yields `data` and then reports `fail`
(`none` is a clean end of input, `io.EOF`). -/
structure Reader where
  data : Str
  fail : Option String
deriving DecidableEq, Repr

/-- Scan for the delimiter: the line up to and including it, and what follows. -/
def cutAt (d : Char) : Str → Option (Str × Str)
  | [] => none
  | c :: cs =>
    if c = d then some ([c], cs)
    else match cutAt d cs with
      | some (l, r) => some (c :: l, r)
      | none => none

/-- Go `bufio.Reader.ReadString`: reads up to and including the first delimiter; when the
input ends first it returns what was read together with the error (often `io.EOF`). -/
def ReadString (r : Reader) (d : Char) : Str × Option ReadErr × Reader :=
  match cutAt d r.data with
  | some (l, rest) => (l, none, { r with data := rest })
  | none =>
    (r.data, some (match r.fail with | none => ReadErr.eof | some m => ReadErr.other m),
      { r with data := [] })

/-- Go `strings.Join(segs, "/")`. -/
def joinSlash (segs : List Str) : Str :=
  List.intercalate ['/'] segs

/-- One path element in `path.Clean`: empty and `.` elements vanish, `..` removes the
element before it, is dropped at the root of a rooted path, and is kept otherwise. The
output is held innermost element first. -/
def cleanStep (rooted : Bool) (out : List Str) (seg : Str) : List Str :=
  if seg = [] ∨ seg = ['.'] then out
  else if seg = ['.', '.'] then
    match out with
    | [] => if rooted then [] else [seg]
    | top :: below => if top = ['.', '.'] then seg :: out else below
  else seg :: out

/-- Go `path.Clean`. -/
def Clean (p : Str) : Str :=
  if p = [] then ['.']
  else
    let rooted := p.head? = some '/'
    let out := ((p.splitOn '/').foldl (cleanStep rooted) []).reverse
    if rooted then '/' :: joinSlash out
    else if out = [] then ['.'] else joinSlash out

/-- Go `path.Join`: the non-empty elements separated by slashes, cleaned; the empty
string when there is none. -/
def Join (elem : List Str) : Str :=
  let ne := elem.filter (fun e => e ≠ [])
  if ne = [] then [] else Clean (joinSlash ne)

/-- Go `path.Dir`: everything up to and including the last slash, cleaned. -/
def Dir (p : Str) : Str :=
  Clean (p.rdropWhile (fun c => c ≠ '/'))

/-- Go `path.Base`. -/
def Base (p : Str) : Str :=
  if p = [] then ['.']
  else
    let p1 := p.rdropWhile (fun c => c = '/')
    let p2 := p1.rtakeWhile (fun c => c ≠ '/')
    if p2 = [] then ['/'] else p2

/-- Go `path.Ext`: the suffix beginning at the final dot of the final element. -/
def Ext (p : Str) : Str :=
  let last := p.rtakeWhile (fun c => c ≠ '/')
  if '.' ∈ last then '.' :: last.rtakeWhile (fun c => c ≠ '.') else []

/-! ## `sandbox.go` -/

/-- `EnvFile`: default location of the env file. -/
def EnvFile : Str := "/etc/env".toList

/-- `BufferSize` of data captured from the sandbox stdout and stderr. -/
def BufferSize : Nat := 32 * 1024

/-- The body of the `for err == nil` loop of `parseEnv`, one iteration per unit of fuel.
`none` means the fuel ran out. -/
def parseEnvLoop : Nat → Reader → List Str → Option (List Str × Option Err)
  | 0, _, _ => none
  | n + 1, r, env =>
    match ReadString r '\n' with
    | (line, err, r1) =>
      match err with
      | some (ReadErr.other m) => some (env, some m)
      | _ =>
        let line := TrimSpace line
        let env1 :=
          if line = [] then env
          else if HasPrefix line ['#'] then env
          else env ++ [line]
        if err = none then parseEnvLoop n r1 env1 else some (env1, none)

/-- `parseEnv`: every iteration but the last consumes a newline, so `length + 1`
iterations are enough. -/
def parseEnv (r : Reader) : Option (List Str × Option Err) :=
  parseEnvLoop (r.data.length + 1) r []

/-- Outcome of `os.Open` on the env file. -/
inductive OpenResult where
  | notExist
  | failed (msg : Err)
  | ok (file : Reader)
deriving DecidableEq, Repr

/-- Go `exec.Cmd`, the fields that `Run` sets, and `Process` of a started command. -/
structure Cmd where
  Path : Str
  Dir : Str
  Env : List Str
  Chroot : Str
  Process : Option Nat
deriving DecidableEq, Repr

/-- What the child did: bytes written to stdout and to stderr, and the result of waiting
for it. -/
structure Exit where
  stdout : Str
  stderr : Str
  err : Option Err
deriving DecidableEq, Repr

/-- The operating system as `sandbox.go` uses it. -/
structure SandboxHost where
  /-- Result of `os.Open` by path. -/
  osOpen : Str → OpenResult
  /-- Result of starting a command: the pid of the child, or the spawn error. -/
  start : Cmd → Except Err Nat
  /-- Result of waiting for a started child. -/
  wait : Nat → Exit
  /-- Result of `Process.Signal` by pid and signal number. -/
  kill : Nat → Nat → Option Err

/-- The loop of `environ`, the same text as the loop of `parseEnv`. -/
def environLoop : Nat → Reader → List Str → Option (List Str × Option Err)
  | 0, _, _ => none
  | n + 1, r, env =>
    match ReadString r '\n' with
    | (line, err, r1) =>
      match err with
      | some (ReadErr.other m) => some (env, some m)
      | _ =>
        let line := TrimSpace line
        let env1 :=
          if line = [] then env
          else if HasPrefix line ['#'] then env
          else env ++ [line]
        if err = none then environLoop n r1 env1 else some (env1, none)

/-- `environ`: the env file of the root, parsed; a missing file is no error. -/
def environ (h : SandboxHost) (root : Str) : Option (List Str × Option Err) :=
  let name := Join [root, EnvFile]
  match h.osOpen name with
  | OpenResult.notExist => some ([], none)
  | OpenResult.failed m => some ([], some m)
  | OpenResult.ok file => environLoop (file.data.length + 1) file []

/-- Modelled from the spec: `NewTailBuffer` and its `Write` and `Bytes` are not among the
sources; the buffer is a sink that retains only the last `size` bytes written. -/
def tailBytes (size : Nat) (written : Str) : Str :=
  written.drop (written.length - size)

/-- The `Sandbox` type. -/
structure Sandbox where
  Root : Str
  UserEnv : List Str
  cmd : Option Cmd
deriving DecidableEq, Repr

/-- The command that `Run` builds from the parsed env file. -/
def Sandbox.command (s : Sandbox) (flistenv : List Str) : Cmd :=
  { Path := "/etc/start".toList, Dir := "/".toList, Env := flistenv ++ s.UserEnv,
    Chroot := s.Root, Process := none }

/-- The command once started as process `pid`. -/
def Cmd.withProcess (c : Cmd) (pid : Nat) : Cmd :=
  { c with Process := some pid }

/-- Where a call of `Run` stands once it reached `cmd.Run()`. -/
inductive RunState where
  /-- `Run` returned before starting a child. -/
  | returned (stdout stderr : Str) (err : Option Err)
  /-- `Run` is blocked in `cmd.Run()` on the child it started. -/
  | blocked (s : Sandbox) (cmd : Cmd) (pid : Nat)
deriving DecidableEq, Repr

/-- `Sandbox.Run` up to the point where the child runs. The sandbox is passed on as `Run`
leaves it: the command is a local variable and no field of the receiver is assigned. -/
def Sandbox.runStart (h : SandboxHost) (s : Sandbox) : Option RunState :=
  match environ h s.Root with
  | none => none
  | some (_, some e) => some (RunState.returned [] [] (some e))
  | some (flistenv, none) =>
    let cmd := s.command flistenv
    match h.start cmd with
    | Except.error e => some (RunState.returned (tailBytes BufferSize []) (tailBytes BufferSize []) (some e))
    | Except.ok pid => some (RunState.blocked s (cmd.withProcess pid) pid)

/-- `Sandbox.Run` from the point where the child runs to its return. -/
def Sandbox.runWait (h : SandboxHost) : RunState → Str × Str × Option Err
  | RunState.returned out err e => (out, err, e)
  | RunState.blocked _ _ pid =>
    let x := h.wait pid
    (tailBytes BufferSize x.stdout, tailBytes BufferSize x.stderr, x.err)

/-- `Sandbox.Run`: runs the sandbox, blocks until the entry point exits. -/
def Sandbox.Run (h : SandboxHost) (s : Sandbox) : Option (Str × Str × Option Err) :=
  (s.runStart h).map (Sandbox.runWait h)

/-- `Sandbox.Signal`: the error returned, and the pid signalled if any. -/
def Sandbox.Signal (h : SandboxHost) (s : Sandbox) (signal : Nat) : Option Err × Option Nat :=
  match s.cmd with
  | none => (some "sandbox is not started", none)
  | some c =>
    match c.Process with
    | none => (some "sandbox is not started", none)
    | some pid => (h.kill pid signal, some pid)

/-! ## The host of `chroot.go`

The file system has no symbolic links and paths are resolved lexically. A location is the
list of the names on the way from the root, innermost first, so that the parent of a
location is its tail and the root is `[]`. -/

/-- Byte values. -/
abbrev Bytes := List Nat

/-- A location of the file system. -/
abbrev Loc := List Str

/-- What a location holds. -/
inductive Node where
  | dir
  | file (content : Bytes)
deriving DecidableEq, Repr

/-- The file system: what each location holds. The root is always a directory. -/
abbrev FS := Loc → Option Node

/-- Go `os.Stat` by location. -/
def FS.node (fs : FS) (l : Loc) : Option Node :=
  if l = [] then some Node.dir else fs l

/-- The file system with one location replaced. -/
def FS.set (fs : FS) (l : Loc) (n : Node) : FS :=
  fun k => if k = l then some n else fs k

/-- One path element of a resolution: `.` and empty elements stay, `..` goes to the parent
(the root is its own parent), a name goes down. -/
def resolveStep (cur : Loc) (seg : Str) : Loc :=
  if seg = [] ∨ seg = ['.'] then cur
  else if seg = ['.', '.'] then cur.tail
  else seg :: cur

/-- The location a path names, from the working directory when the path is relative. -/
def resolve (cwd : Loc) (p : Str) : Loc :=
  (p.splitOn '/').foldl resolveStep (if p.head? = some '/' then [] else cwd)

/-- Go `os.MkdirAll`: nothing to do for a directory, an error for a file, and otherwise the
parent is made first and then the directory itself. -/
def mkdirAll (fs : FS) : Loc → Option Err × FS
  | [] => (none, fs)
  | seg :: parent =>
    match fs.node (seg :: parent) with
    | some Node.dir => (none, fs)
    | some (Node.file _) => (some "mkdir: not a directory", fs)
    | none =>
      match mkdirAll fs parent with
      | (some e, fs1) => (some e, fs1)
      | (none, fs1) => (none, fs1.set (seg :: parent) Node.dir)

/-- Go `os.Create`: the parent must be a directory and the target must not be one; the
file is created or truncated. -/
def create (fs : FS) (l : Loc) : Option Err × FS :=
  match l with
  | [] => (some "open: is a directory", fs)
  | _ :: parent =>
    match fs.node parent with
    | some Node.dir =>
      match fs.node l with
      | some Node.dir => (some "open: is a directory", fs)
      | _ => (none, fs.set l (Node.file []))
    | some (Node.file _) => (some "open: not a directory", fs)
    | none => (some "open: no such file or directory", fs)

/-- Go `os.RemoveAll`: the location and everything below it. -/
def removeAll (fs : FS) (l : Loc) : FS :=
  fun k => if l <:+ k then none else fs k

/-- Go `ioutil.ReadFile`. -/
def readFile (fs : FS) (l : Loc) : Except Err Bytes :=
  match fs.node l with
  | some (Node.file b) => Except.ok b
  | some Node.dir => Except.error "read: is a directory"
  | none => Except.error "open: no such file or directory"

/-- A stream of bytes as a reader yields it: `data`, then `fail` (`none` is `io.EOF`). -/
structure ByteStream where
  data : Bytes
  fail : Option Err
deriving DecidableEq, Repr

/-- The kinds of reader that `getMetaDBTar` stacks. -/
inductive LayerKind where
  /-- An `*os.File` opened on a path. -/
  | file (path : Str)
  /-- The body of the response to a GET of a url. -/
  | body (url : Str)
  /-- A `*gzip.Reader`. -/
  | gzip
  /-- The reader of `bzip2.NewReader`, which has no `Close`. -/
  | bzip2
deriving DecidableEq, Repr

/-- One reader: its kind and what reading it yields. -/
structure Layer where
  kind : LayerKind
  stream : ByteStream
deriving DecidableEq, Repr

/-- Whether the reader is an `io.Closer`. -/
def Layer.isCloser (l : Layer) : Bool :=
  match l.kind with
  | LayerKind.bzip2 => false
  | _ => true

/-- Go `url.URL`, the fields read. -/
structure URL where
  Scheme : Str
  Path : Str
deriving DecidableEq, Repr

/-- Go `http.Response`, the fields read. -/
structure Response where
  StatusCode : Nat
  Status : Str
  Body : ByteStream
deriving DecidableEq, Repr

/-- Go `tar.Header`, the fields read. -/
structure Header where
  Name : Str
  IsDir : Bool
deriving DecidableEq, Repr

/-- One entry of an archive: its header, its payload, and the error that reading the
payload ends with, if any. -/
structure Entry where
  header : Header
  data : Bytes
  readErr : Option Err
deriving DecidableEq, Repr

/-- What a `tar.Reader` yields: the entries, then `fail` from `Next` (`none` is `io.EOF`). -/
structure Archive where
  entries : List Entry
  fail : Option Err
deriving DecidableEq, Repr

/-- `g8ufs.Options`. -/
structure Options where
  Backend : Str
  Target : Str
  MetaStore : Nat
  Storage : Nat
  Cache : Str
deriving DecidableEq, Repr

/-- The calls that leave the process, in the order made. -/
inductive Event where
  /-- `Close` of a reader. -/
  | closed (k : LayerKind)
  /-- `http.Get`. -/
  | httpGet (url : Str)
  /-- The command `mountpoint -q path`. -/
  | probed (path : Str)
  /-- `meta.NewStore`. -/
  | newStore (path : Str)
  /-- `storage.NewSimpleStorage`. -/
  | newSimpleStorage (url : Str)
  /-- `g8ufs.Mount`. -/
  | fsMount (opt : Options)
  /-- `syscall.Mount` with `MS_BIND`. -/
  | bindMount (source target : Str)
  /-- `syscall.Unmount` with `MNT_FORCE|MNT_DETACH`. -/
  | forceUnmount (target : Str)
  /-- `Unmount` of a mount handle. -/
  | fsUnmount (handle : Nat)
  /-- `os.RemoveAll`. -/
  | removeAll (path : Str)
deriving DecidableEq, Repr

/-- The state outside the process: the file system and the calls made so far. -/
structure World where
  fs : FS
  trace : List Event

/-- The world with one more call recorded. -/
def World.log (w : World) (e : Event) : World :=
  { w with trace := w.trace ++ [e] }

/-- The libraries and the operating system as `chroot.go` uses them. The results of calls
that depend on the state outside the process take the world as it is at the call. -/
structure Host where
  /-- Home directory of `user.Current`, `none` when the lookup fails. -/
  currentUser : Option Str
  /-- Working directory of the process. -/
  cwd : Loc
  /-- Result of `url.Parse`. -/
  urlParse : Str → Except Err URL
  /-- Error of `os.Open` on an existing path, if any. -/
  openErr : World → Str → Option Err
  /-- Result of `http.Get`. -/
  httpGet : World → Str → Except Err Response
  /-- Result of `gzip.NewReader`, which reads the header. -/
  gzipNewReader : ByteStream → Except Err ByteStream
  /-- Result of `bzip2.NewReader`. -/
  bzip2NewReader : ByteStream → ByteStream
  /-- Entries that `tar.NewReader` reads from a stream. -/
  tarNewReader : ByteStream → Archive
  /-- Whether `mountpoint -q` exits with success. -/
  mountpoint : World → Str → Bool
  /-- Result of `meta.NewStore`. -/
  newStore : World → Str → Except Err Nat
  /-- Result of `storage.NewSimpleStorage`. -/
  newSimpleStorage : World → Str → Except Err Nat
  /-- Result of `g8ufs.Mount`. -/
  fsMount : World → Options → Except Err Nat
  /-- Result of `syscall.Mount` with `MS_BIND`. -/
  bindMount : World → Str → Str → Option Err
  /-- Result of `syscall.Unmount`. -/
  forceUnmount : World → Str → Option Err
  /-- Result of `Unmount` of a mount handle. -/
  fsUnmount : World → Nat → Option Err

/-! ## `chroot.go` -/

/-- A helper to close all underlying readers of an flist file stream. -/
structure underLayingCloser where
  readers : List Layer
deriving DecidableEq, Repr

/-- `underLayingCloser.Close`: from the last layer to the first, each layer that is a
closer is closed; the errors are dropped. -/
def underLayingCloser.Close (u : underLayingCloser) (w : World) : World :=
  u.readers.reverse.foldl
    (fun w r => if r.isCloser then w.log (Event.closed r.kind) else w) w

/-- `underLayingCloser.Read`: read only from the last layer. -/
def underLayingCloser.Read (u : underLayingCloser) : ByteStream :=
  match u.readers.getLast? with
  | some l => l.stream
  | none => { data := [], fail := none }

/-- What reading an opened location yields. -/
def fileStream (n : Node) : ByteStream :=
  match n with
  | Node.file b => { data := b, fail := none }
  | Node.dir => { data := [], fail := some "read: is a directory" }

/-- The first half of `getMetaDBTar`: the source of the locator is opened. -/
def openSource (h : Host) (w : World) (src : Str) (u : URL) : Except Err Layer × World :=
  if u.Scheme = "file".toList ∨ u.Scheme = [] then
    match w.fs.node (resolve h.cwd u.Path) with
    | none => (Except.error "stat: no such file or directory", w)
    | some n =>
      match h.openErr w u.Path with
      | some e => (Except.error e, w)
      | none => (Except.ok { kind := LayerKind.file u.Path, stream := fileStream n }, w)
  else if u.Scheme = "http".toList ∨ u.Scheme = "https".toList then
    let w1 := w.log (Event.httpGet src)
    match h.httpGet w src with
    | Except.error e => (Except.error e, w1)
    | Except.ok response =>
      if response.StatusCode ≠ 200 then
        (Except.error ("failed to download flist: " ++ String.mk response.Status), w1)
      else (Except.ok { kind := LayerKind.body src, stream := response.Body }, w1)
  else (Except.error ("invalid flist url (" ++ String.mk src ++ ")"), w)

/-- `getMetaDBTar`: the stream of the archive behind a locator. -/
def getMetaDBTar (h : Host) (w : World) (src : Str) : Except Err underLayingCloser × World :=
  match h.urlParse src with
  | Except.error e => (Except.error e, w)
  | Except.ok u =>
    let base := Base u.Path
    match openSource h w src u with
    | (Except.error e, w1) => (Except.error e, w1)
    | (Except.ok reader, w1) =>
      let closer : underLayingCloser := { readers := [] ++ [reader] }
      let ext := Ext base
      if ext = ".tgz".toList ∨ ext = ".flist".toList ∨ ext = ".gz".toList then
        match h.gzipNewReader reader.stream with
        | Except.error e => (Except.error e, closer.Close w1)
        | Except.ok r =>
          (Except.ok { readers := closer.readers ++ [{ kind := LayerKind.gzip, stream := r }] }, w1)
      else if ext = ".tbz2".toList ∨ ext = ".bz2".toList then
        (Except.ok { readers := closer.readers ++
          [{ kind := LayerKind.bzip2, stream := h.bzip2NewReader reader.stream }] }, w1)
      else if ext = ".tar".toList then (Except.ok closer, w1)
      else (Except.error ("unknown flist format " ++ String.mk ext), w1)

/-- The path that `getMetaDB` makes the parent directory of an entry at. -/
def entryDir (db : Str) (hdr : Header) : Str :=
  Join [db, Dir hdr.Name]

/-- The path that `getMetaDB` creates the file of an entry at. -/
def entryFile (db : Str) (hdr : Header) : Str :=
  Join [db, hdr.Name]

/-- One entry in the loop of `getMetaDB`: the error it returns with, if any, and the file
system it leaves. -/
def extractEntry (cwd : Loc) (db : Str) (e : Entry) (fs : FS) : Option Err × FS :=
  if e.header.IsDir then (none, fs)
  else
    let base := entryDir db e.header
    match mkdirAll fs (resolve cwd base) with
    | (some err, fs1) => (some err, fs1)
    | (none, fs1) =>
      match create fs1 (resolve cwd (entryFile db e.header)) with
      | (some err, fs2) => (some err, fs2)
      | (none, fs2) =>
        let fs3 := fs2.set (resolve cwd (entryFile db e.header)) (Node.file e.data)
        (e.readErr, fs3)

/-- The loop of `getMetaDB` over the entries that `Next` yields, and `fail` after them. -/
def extractLoop (cwd : Loc) (db : Str) : List Entry → Option Err → FS → Option Err × FS
  | [], fail, fs => (fail, fs)
  | e :: rest, fail, fs =>
    match extractEntry cwd db e fs with
    | (some err, fs1) => (some err, fs1)
    | (none, fs1) => extractLoop cwd db rest fail fs1

/-- `getMetaDB`: the archive behind `src` extracted into `<namespace>.db`; the stream is
closed on every return after it was opened. -/
def getMetaDB (h : Host) (w : World) (ns src : Str) : (Str × Option Err) × World :=
  match getMetaDBTar h w src with
  | (Except.error e, w1) => (([], some e), w1)
  | (Except.ok reader, w1) =>
    let archive := h.tarNewReader reader.Read
    let db := ns ++ ".db".toList
    match mkdirAll w1.fs (resolve h.cwd db) with
    | (some e, fs2) => (([], some e), reader.Close { w1 with fs := fs2 })
    | (none, fs2) =>
      match extractLoop h.cwd db archive.entries archive.fail fs2 with
      | (some e, fs3) => (([], some e), reader.Close { w1 with fs := fs3 })
      | (none, fs3) => ((db, none), reader.Close { w1 with fs := fs3 })

/-- A call either returns or panics. -/
inductive Outcome (α : Type) where
  | ret (a : α)
  | panicked (msg : String)
deriving DecidableEq, Repr

/-- Chroot builds an flist chroot mount; `fs` is the mount handle, `none` for `nil`. -/
structure Chroot where
  ID : Str
  Flist : Str
  Storage : Str
  fs : Option Nat
deriving DecidableEq, Repr

/-- `Chroot.getBaseDir`. -/
def Chroot.getBaseDir (_c : Chroot) (h : Host) (p : List Str) : Outcome Str :=
  match h.currentUser with
  | none => Outcome.panicked "failed to get current user"
  | some home => Outcome.ret (Join [home, Join p])

/-- `Chroot.MountRoot` returns the mountpoint path. -/
def Chroot.MountRoot (c : Chroot) (h : Host) : Outcome Str :=
  c.getBaseDir h [".zbundle".toList, c.ID]

/-- `Chroot.WorkDirRoot` returns the working directory root of an flist. -/
def Chroot.WorkDirRoot (c : Chroot) (h : Host) : Outcome Str :=
  c.getBaseDir h [".zbundle.wd".toList, c.ID]

/-- The loop of `prepare` over the directories left to bind. -/
def prepareBinds (h : Host) (root : Str) : List Str → World → Option Err × World
  | [], w => (none, w)
  | dir :: rest, w =>
    let target := Join [root, dir]
    let w1 : World := { w with fs := (mkdirAll w.fs (resolve h.cwd target)).2 }
    let source := Join ["/".toList, dir]
    let w2 := w1.log (Event.bindMount source target)
    match h.bindMount w1 source target with
    | some err => (some err, w2)
    | none => prepareBinds h root rest w2

/-- Go `ioutil.WriteFile`, its error dropped. -/
def writeFile (fs : FS) (l : Loc) (b : Bytes) : FS :=
  match create fs l with
  | (some _, fs1) => fs1
  | (none, fs1) => fs1.set l (Node.file b)

/-- `Chroot.prepare`. -/
def Chroot.prepare (c : Chroot) (h : Host) (w : World) : Outcome (Option Err) × World :=
  match c.MountRoot h with
  | Outcome.panicked m => (Outcome.panicked m, w)
  | Outcome.ret root =>
    match prepareBinds h root ["proc".toList, "dev".toList, "sys".toList] w with
    | (some err, w1) => (Outcome.ret (some err), w1)
    | (none, w1) =>
      let w2 : World :=
        { w1 with fs := (mkdirAll w1.fs (resolve h.cwd (Join [root, "etc".toList]))).2 }
      match readFile w2.fs (resolve h.cwd "/etc/resolv.conf".toList) with
      | Except.error _ => (Outcome.ret none, w2)
      | Except.ok resolve =>
        let target := Join [root, "etc".toList, "resolv.conf".toList]
        (Outcome.ret none, { w2 with fs := writeFile w2.fs (ZBundle.resolve h.cwd target) resolve })

/-- The loop of `unPrepare`. -/
def unPrepareBinds (root : Str) : List Str → World → World
  | [], w => w
  | dir :: rest, w => unPrepareBinds root rest (w.log (Event.forceUnmount (Join [root, dir])))

/-- `Chroot.unPrepare`. -/
def Chroot.unPrepare (c : Chroot) (h : Host) (w : World) : Outcome Unit × World :=
  match c.MountRoot h with
  | Outcome.panicked m => (Outcome.panicked m, w)
  | Outcome.ret root =>
    (Outcome.ret (), unPrepareBinds root ["proc".toList, "dev".toList, "sys".toList] w)

/-- `isMount` checks if path is a mountpoint. -/
def isMount (h : Host) (w : World) (path : Str) : Bool × World :=
  (h.mountpoint w path, w.log (Event.probed path))

/-- `os.RemoveAll` by path. -/
def World.removeAll (w : World) (cwd : Loc) (path : Str) : World :=
  { fs := ZBundle.removeAll w.fs (resolve cwd path), trace := w.trace ++ [Event.removeAll path] }

/-- `Chroot.Start` starts the chroot. -/
def Chroot.Start (c : Chroot) (h : Host) (w : World) : Outcome (Option Err) × Chroot × World :=
  match c.MountRoot h with
  | Outcome.panicked m => (Outcome.panicked m, c, w)
  | Outcome.ret root =>
    match isMount h w root with
    | (true, w1) => (Outcome.ret (some "a chroot is running with the same id"), c, w1)
    | (false, w1) =>
      let w2 : World := { w1 with fs := (mkdirAll w1.fs (resolve h.cwd root)).2 }
      match c.WorkDirRoot h with
      | Outcome.panicked m => (Outcome.panicked m, c, w2)
      | Outcome.ret ns =>
        match getMetaDB h w2 ns c.Flist with
        | ((_, some err), w3) => (Outcome.ret (some err), c, w3)
        | ((metaPath, none), w3) =>
          let w4 := w3.log (Event.newStore metaPath)
          match h.newStore w3 metaPath with
          | Except.error err => (Outcome.ret (some err), c, w4)
          | Except.ok metaStore =>
            let w5 := w4.log (Event.newSimpleStorage c.Storage)
            match h.newSimpleStorage w4 c.Storage with
            | Except.error err => (Outcome.ret (some err), c, w5)
            | Except.ok stor =>
              match c.getBaseDir h [".zbundle.cache".toList] with
              | Outcome.panicked m => (Outcome.panicked m, c, w5)
              | Outcome.ret cache =>
                let opt : Options :=
                  { Backend := ns, Target := root, MetaStore := metaStore, Storage := stor,
                    Cache := Join [cache] }
                let w6 := w5.log (Event.fsMount opt)
                match h.fsMount w5 opt with
                | Except.error err => (Outcome.ret (some err), c, w6)
                | Except.ok fs =>
                  let c1 : Chroot := { c with fs := some fs }
                  match c1.prepare h w6 with
                  | (r, w7) => (r, c1, w7)

/-- `Chroot.Stop` stops the chroot. The removal of `<namespace>.db` is deferred: it runs
when the function leaves, also by a panic. -/
def Chroot.Stop (c : Chroot) (h : Host) (w : World) : Outcome (Option Err) × Chroot × World :=
  match c.fs with
  | none => (Outcome.ret (some "chroot is not started"), c, w)
  | some fs =>
    match c.WorkDirRoot h with
    | Outcome.panicked m => (Outcome.panicked m, c, w)
    | Outcome.ret ns =>
      let db := ns ++ ".db".toList
      match c.unPrepare h w with
      | (Outcome.panicked m, w1) => (Outcome.panicked m, c, w1.removeAll h.cwd db)
      | (Outcome.ret (), w1) =>
        let w2 := w1.log (Event.fsUnmount fs)
        (Outcome.ret (h.fsUnmount w1 fs), c, w2.removeAll h.cwd db)

/-! ## Specification-side definitions -/

/-- The env lines of a text as the specification words them: split at newlines, trim each
piece, drop the pieces that are empty or start with `#`. -/
def envLines (c : Str) : List Str :=
  ((c.splitOn '\n').map TrimSpace).filter (fun l => l ≠ [] ∧ ¬ HasPrefix l ['#'])

/-! ## Sample inputs -/

/-- The env file of the testable properties. -/
def sampleEnvText : Str := "# comment\nFOO=bar\n\nBAZ=qux\n".toList

/-- A host whose root `/mnt` holds the sample env file and where every command starts as
process 42 and exits cleanly after printing `hi`. -/
def sampleSandboxHost : SandboxHost where
  osOpen := fun name =>
    if name = "/mnt/etc/env".toList then OpenResult.ok { data := sampleEnvText, fail := none }
    else OpenResult.notExist
  start := fun _ => Except.ok 42
  wait := fun _ => { stdout := "hi\n".toList, stderr := [], err := none }
  kill := fun _ _ => none

/-- A sandbox on `/mnt` as a caller builds it, with one override. -/
def sampleSandbox : Sandbox :=
  { Root := "/mnt".toList, UserEnv := ["FOO=override".toList], cmd := none }

/-- A file system with the directory `/w` and, in it, a file for every name that starts
with `x`: `x.tgz` begins with the gzip magic bytes, the others hold `1 2 3`. -/
def sampleFS : FS := fun l =>
  match l with
  | [w] => if w = "w".toList then some Node.dir else none
  | [name, w] =>
    if w = "w".toList ∧ name.head? = some 'x' then
      some (Node.file (if name = "x.tgz".toList then [31, 139, 8] else [1, 2, 3]))
    else none
  | _ => none

/-- A world with the sample file system where no call was made yet. -/
def sampleWorld : World := { fs := sampleFS, trace := [] }

/-- A host in `/w` for the user of home `/home/u`: locators are plain paths, a gzip
reader wants the magic bytes, every stream decodes to the archive `a`, the mountpoint probe
answers `mounted`, binding `/dev` fails when `bindFails`, and the handle 7 unmounts with
the error `unmountErr`. -/
def sampleHost (a : Archive) (mounted bindFails : Bool) (unmountErr : Option Err) : Host where
  currentUser := some "/home/u".toList
  cwd := ["w".toList]
  urlParse := fun s => Except.ok { Scheme := [], Path := s }
  openErr := fun _ _ => none
  httpGet := fun _ _ => Except.error "no network"
  gzipNewReader := fun s =>
    if s.data.take 2 = [31, 139] then Except.ok s else Except.error "gzip: invalid header"
  bzip2NewReader := fun s => s
  tarNewReader := fun _ => a
  mountpoint := fun _ _ => mounted
  newStore := fun _ _ => Except.ok 1
  newSimpleStorage := fun _ _ => Except.ok 2
  fsMount := fun _ _ => Except.ok 7
  bindMount := fun _ source _ =>
    if bindFails ∧ source = "/dev".toList then some "mount: operation not permitted" else none
  forceUnmount := fun _ _ => none
  fsUnmount := fun _ _ => unmountErr

/-- The archive of the testable properties: the directory `a/b/` and the file
`a/b/c.txt` holding `hi`. -/
def sampleArchive : Archive :=
  { entries :=
      [{ header := { Name := "a/b/".toList, IsDir := true }, data := [], readErr := none },
       { header := { Name := "a/b/c.txt".toList, IsDir := false }, data := [104, 105],
         readErr := none }],
    fail := none }

/-- The extensions that `getMetaDBTar` knows. -/
def knownExts : List Str :=
  [".tgz".toList, ".flist".toList, ".gz".toList, ".tbz2".toList, ".bz2".toList, ".tar".toList]

/-- The three forced, detached unmounts of `unPrepare` under a mount root, in order. -/
def unbindTrace (root : Str) : List Event :=
  [Event.forceUnmount (Join [root, "proc".toList]),
   Event.forceUnmount (Join [root, "dev".toList]),
   Event.forceUnmount (Join [root, "sys".toList])]

/-- The calls of a teardown, in order: the three unmounts, `Unmount` of the handle, and
the removal of `<namespace>.db`. -/
def teardownTrace (root ns : Str) (handle : Nat) : List Event :=
  unbindTrace root ++ [Event.fsUnmount handle, Event.removeAll (ns ++ ".db".toList)]

/-- The error of `Stop` on a controller without handle. -/
def errNotRunning : Err := "chroot is not started"

/-- The error of `Start` on a mount root that is a mount point. -/
def errAlreadyRunning : Err := "a chroot is running with the same id"

/-- A controller as a caller builds it: no handle yet. -/
def sampleChroot : Chroot :=
  { ID := "id1".toList, Flist := "x.tar".toList, Storage := "zdb://hub".toList, fs := none }

/-- The world in which `Start` calls `getMetaDB`: the probe was made and the mount root
exists. -/
def worldAtFetch (h : Host) (w : World) (root : Str) : World :=
  { fs := (mkdirAll w.fs (resolve h.cwd root)).2, trace := w.trace ++ [Event.probed root] }

/-- The world in which `Start` calls `g8ufs.Mount`, from the one `getMetaDB` left. -/
def worldAtMount (w3 : World) (metaPath storage : Str) : World :=
  (w3.log (Event.newStore metaPath)).log (Event.newSimpleStorage storage)

/-- `MountRoot` for a home directory and an id. -/
def mountRootOf (home id : Str) : Str :=
  Join [home, Join [".zbundle".toList, id]]

/-- `WorkDirRoot` for a home directory and an id. -/
def workRootOf (home id : Str) : Str :=
  Join [home, Join [".zbundle.wd".toList, id]]

/-- The options that `Start` mounts with. -/
def mountOptions (home id : Str) (metaStore stor : Nat) : Options :=
  { Backend := workRootOf home id, Target := mountRootOf home id, MetaStore := metaStore,
    Storage := stor, Cache := Join [Join [home, Join [".zbundle.cache".toList]]] }

/-- The sample controller started on the sample host. -/
def sampleStarted : Outcome (Option Err) × Chroot × World :=
  sampleChroot.Start (sampleHost sampleArchive false false none) sampleWorld

/-- The started sample controller stopped. -/
def sampleStopped : Outcome (Option Err) × Chroot × World :=
  sampleStarted.2.1.Stop (sampleHost sampleArchive false false none) sampleStarted.2.2

/-- The stopped sample controller stopped once more, with no `Start` in between. -/
def sampleStoppedAgain : Outcome (Option Err) × Chroot × World :=
  sampleStopped.2.1.Stop (sampleHost sampleArchive false false none) sampleStopped.2.2

/-- An archive with the directory entry `a/b/` alone. -/
def sampleDirArchive : Archive :=
  { entries :=
      [{ header := { Name := "a/b/".toList, IsDir := true }, data := [], readErr := none }],
    fail := none }

/-- The path has no `..` element. -/
def noDotDot (x : Str) : Prop :=
  ['.', '.'] ∉ x.splitOn '/'

instance (x : Str) : Decidable (noDotDot x) :=
  inferInstanceAs (Decidable (['.', '.'] ∉ x.splitOn '/'))

/-- The elements that `path.Clean` keeps of a name read as a relative path, innermost
first: the loop of `path.Clean`, not rooted, from the empty output. -/
def relStack (x : Str) : List Str :=
  (x.splitOn '/').foldl (cleanStep false) []

/-- The elements of `path.Clean` of a name read as a relative path, in order. -/
def cleanRel (x : Str) : List Str :=
  (relStack x).reverse

/-- The `..` elements of the name never climb above the root of the name: cleaned as a
relative path the name keeps no `..`. -/
def noClimb (x : Str) : Prop :=
  ['.', '.'] ∉ relStack x

instance (x : Str) : Decidable (noClimb x) :=
  inferInstanceAs (Decidable (['.', '.'] ∉ relStack x))

/-- The path `p` is `base` followed by `/` and further elements. -/
def underPath (base p : Str) : Prop :=
  ∃ rest : Str, rest ≠ [] ∧ p = base ++ '/' :: rest

/-- The path `p` is `base` or under it. -/
def atOrUnder (base p : Str) : Prop :=
  p = base ∨ underPath base p

/-- An archive whose only entry is the file `../../x` holding `hi`. -/
def sampleEscapeArchive : Archive :=
  { entries :=
      [{ header := { Name := "../../x".toList, IsDir := false }, data := [104, 105],
         readErr := none }],
    fail := none }

/-! ## Lemmas on the library functions -/

theorem splitOn_cons (d x : Char) (xs : Str) :
    (x :: xs).splitOn d =
      if x = d then [] :: xs.splitOn d else (xs.splitOn d).modifyHead (List.cons x) := by
  unfold List.splitOn
  rw [List.splitOnP_cons]
  by_cases hx : x = d <;> simp [hx]

theorem splitOn_ne_nil (d : Char) (xs : Str) : xs.splitOn d ≠ [] := by
  unfold List.splitOn
  exact List.splitOnP_ne_nil _ _

theorem cutAt_none (d : Char) : ∀ s : Str, cutAt d s = none → s.splitOn d = [s]
  | [], _ => by simp [List.splitOn_nil]
  | c :: cs, h => by
    unfold cutAt at h
    by_cases hc : c = d
    · simp [hc] at h
    · simp only [hc, if_false] at h
      cases hr : cutAt d cs with
      | some v => rw [hr] at h; cases h
      | none =>
        rw [splitOn_cons, if_neg hc, cutAt_none d cs hr]
        rfl

theorem cutAt_some (d : Char) : ∀ (s l r : Str), cutAt d s = some (l, r) →
    ∃ p, l = p ++ [d] ∧ s.splitOn d = p :: r.splitOn d ∧ r.length < s.length
  | [], l, r, h => by simp [cutAt] at h
  | c :: cs, l, r, h => by
    unfold cutAt at h
    by_cases hc : c = d
    · simp only [hc, if_true, Option.some.injEq, Prod.mk.injEq] at h
      obtain ⟨rfl, rfl⟩ := h
      refine ⟨[], by simp, ?_, by simp⟩
      rw [splitOn_cons, if_pos hc]
    · simp only [hc, if_false] at h
      cases hr : cutAt d cs with
      | none => rw [hr] at h; cases h
      | some v =>
        obtain ⟨l1, r1⟩ := v
        rw [hr] at h
        simp only [Option.some.injEq, Prod.mk.injEq] at h
        obtain ⟨rfl, rfl⟩ := h
        obtain ⟨p, hp, hs, hlen⟩ := cutAt_some d cs l1 r1 hr
        refine ⟨c :: p, by simp [hp], ?_, by simp; omega⟩
        rw [splitOn_cons, if_neg hc, hs]
        rfl

theorem TrimSpace_append_newline (p : Str) : TrimSpace (p ++ ['\n']) = TrimSpace p := by
  unfold TrimSpace
  by_cases hall : ∀ c ∈ p, isSpace c = true
  · have h1 : p.dropWhile isSpace = [] := by
      rw [List.dropWhile_eq_nil_iff]; exact hall
    have h2 : (p ++ ['\n']).dropWhile isSpace = [] := by
      rw [List.dropWhile_eq_nil_iff]
      intro c hc
      rcases List.mem_append.mp hc with h | h
      · exact hall c h
      · simp at h; subst h; decide
    rw [h1, h2]
  · have hne : p.dropWhile isSpace ≠ [] := by
      rw [Ne, List.dropWhile_eq_nil_iff]; exact hall
    have h2 : (p ++ ['\n']).dropWhile isSpace = p.dropWhile isSpace ++ ['\n'] := by
      induction p with
      | nil => simp at hall
      | cons a t ih =>
        by_cases ha : isSpace a = true
        · have ht : ¬ ∀ c ∈ t, isSpace c = true := by
            intro hh; apply hall; intro c hc
            rcases List.mem_cons.mp hc with h | h
            · subst h; exact ha
            · exact hh c h
          have hne2 : t.dropWhile isSpace ≠ [] := by
            rw [Ne, List.dropWhile_eq_nil_iff]; exact ht
          simp only [List.cons_append, List.dropWhile_cons, ha, if_true]
          exact ih ht hne2
        · simp [List.dropWhile_cons, ha]
    rw [h2, List.rdropWhile_concat]
    simp [show isSpace '\n' = true by decide]

/-! ## The env file -/

/-- What one iteration of the loop does to the environment with a trimmed line. -/
theorem envLines_cons (p : Str) (rest : List Str) :
    ((p :: rest).map TrimSpace).filter (fun l => l ≠ [] ∧ ¬ HasPrefix l ['#']) =
      (if TrimSpace p = [] then [] else if HasPrefix (TrimSpace p) ['#'] then []
        else [TrimSpace p]) ++
      (rest.map TrimSpace).filter (fun l => l ≠ [] ∧ ¬ HasPrefix l ['#']) := by
  by_cases h1 : TrimSpace p = []
  · simp [h1]
  · by_cases h2 : HasPrefix (TrimSpace p) ['#'] = true
    · simp [List.filter_cons, h1, h2]
    · simp [List.filter_cons, h1, h2]

theorem parseEnvLoop_eq (n : Nat) : ∀ (r : Reader) (env : List Str), r.fail = none →
    r.data.length < n → parseEnvLoop n r env = some (env ++ envLines r.data, none) := by
  induction n with
  | zero => intro r env _ h; omega
  | succ n ih =>
    intro r env hf hlen
    unfold parseEnvLoop ReadString
    cases hcut : cutAt '\n' r.data with
    | none =>
      have hs := cutAt_none '\n' r.data hcut
      simp only [hf]
      unfold envLines
      rw [hs]
      have := envLines_cons r.data []
      simp only [List.map_nil, List.filter_nil, List.append_nil] at this
      rw [this]
      by_cases h1 : TrimSpace r.data = []
      · simp [h1]
      · by_cases h2 : HasPrefix (TrimSpace r.data) ['#'] = true
        · simp [h1, h2]
        · simp [h1, h2]
    | some v =>
      obtain ⟨l, rest⟩ := v
      obtain ⟨p, hp, hs, hl⟩ := cutAt_some '\n' r.data l rest hcut
      simp only [if_true]
      rw [ih { data := rest, fail := r.fail } _ hf (by show rest.length < n; omega)]
      unfold envLines
      rw [hs, envLines_cons, hp, TrimSpace_append_newline]
      by_cases h1 : TrimSpace p = []
      · simp [h1]
      · by_cases h2 : HasPrefix (TrimSpace p) ['#'] = true
        · simp [h1, h2]
        · simp [h1, h2]

theorem environLoop_eq_parseEnvLoop (n : Nat) : ∀ (r : Reader) (env : List Str),
    environLoop n r env = parseEnvLoop n r env := by
  induction n with
  | zero => intro r env; rfl
  | succ n ih =>
    intro r env
    unfold environLoop parseEnvLoop
    simp only [ih]

/-! ## Claims on `sandbox.go` -/

theorem environ_of_open (h : SandboxHost) (root : Str) (file : Reader)
    (ho : h.osOpen (Join [root, EnvFile]) = OpenResult.ok file) :
    environ h root = parseEnvLoop (file.data.length + 1) file [] := by
  unfold environ
  simp only [ho]
  exact environLoop_eq_parseEnvLoop _ _ _

/-- C1: for every text `c`, `parseEnv` on `c` and `environ` on a root whose `etc/env` holds
`c` both return, without error, exactly the pieces of `c` split at newlines, trimmed, and
not empty nor starting with `#`, in order; a missing env file gives the empty list and no
error; and the command that `Run` starts has that list followed by the overrides of the
caller as its environment. -/
theorem C1_env_lines (c : Str) :
    parseEnv { data := c, fail := none } = some (envLines c, none) ∧
    (∀ (h : SandboxHost) (root : Str),
      h.osOpen (Join [root, EnvFile]) = OpenResult.ok { data := c, fail := none } →
      environ h root = some (envLines c, none)) ∧
    (∀ (h : SandboxHost) (root : Str),
      h.osOpen (Join [root, EnvFile]) = OpenResult.notExist →
      environ h root = some ([], none)) ∧
    (∀ (h : SandboxHost) (s : Sandbox) (env : List Str),
      environ h s.Root = some (env, none) →
      ∃ cmd : Cmd, cmd.Env = env ++ s.UserEnv ∧ cmd.Path = "/etc/start".toList ∧
        cmd.Chroot = s.Root ∧
        s.runStart h = some (match h.start cmd with
          | Except.error e => RunState.returned [] [] (some e)
          | Except.ok pid => RunState.blocked s (cmd.withProcess pid) pid)) := by
  refine ⟨?_, ?_, ?_, ?_⟩
  · exact parseEnvLoop_eq _ _ _ rfl (Nat.lt_succ_self _)
  · intro h root ho
    rw [environ_of_open h root _ ho]
    exact parseEnvLoop_eq _ _ _ rfl (Nat.lt_succ_self _)
  · intro h root ho
    unfold environ
    simp only [ho]
  · intro h s env he
    refine ⟨s.command env, rfl, rfl, rfl, ?_⟩
    unfold Sandbox.runStart
    simp only [he]
    cases h.start (s.command env) <;> rfl

/-- C1 on the sample env file: its lines are `FOO=bar` and `BAZ=qux`, from `parseEnv` and
from `environ`, and `Run` starts the entry point with these and then the override. -/
theorem C1_env_lines_witness :
    parseEnv { data := sampleEnvText, fail := none } =
      some (["FOO=bar".toList, "BAZ=qux".toList], none) ∧
    environ sampleSandboxHost "/mnt".toList =
      some (["FOO=bar".toList, "BAZ=qux".toList], none) ∧
    environ sampleSandboxHost "/other".toList = some ([], none) ∧
    sampleSandbox.runStart sampleSandboxHost =
      some (RunState.blocked sampleSandbox
        { Path := "/etc/start".toList, Dir := "/".toList,
          Env := ["FOO=bar".toList, "BAZ=qux".toList, "FOO=override".toList],
          Chroot := "/mnt".toList, Process := some 42 } 42) :=
  ⟨(C1_env_lines sampleEnvText).1.trans (by decide),
   ((C1_env_lines sampleEnvText).2.1 sampleSandboxHost "/mnt".toList (by decide)).trans
     (by decide),
   (C1_env_lines sampleEnvText).2.2.1 sampleSandboxHost "/other".toList (by decide),
   by decide⟩

/-- C7: on every sandbox whose `cmd` is unset, as it is before `Run`, `Signal` returns the
not-started error; and once `Run` is blocked on the child it started the sandbox is still
the same, so `Signal` returns the not-started error again and signals no process. -/
theorem C7_signal_while_running (h : SandboxHost) (s s1 : Sandbox) (cmd : Cmd)
    (pid signal : Nat) (hs : s.cmd = none)
    (hrun : s.runStart h = some (RunState.blocked s1 cmd pid)) :
    s.Signal h signal = (some "sandbox is not started", none) ∧
    s1 = s ∧ cmd.Process = some pid ∧
    s1.Signal h signal = (some "sandbox is not started", none) := by
  have h0 : s.Signal h signal = (some "sandbox is not started", none) := by
    unfold Sandbox.Signal; simp only [hs]
  unfold Sandbox.runStart at hrun
  cases he : environ h s.Root with
  | none => simp only [he] at hrun; cases hrun
  | some v =>
    obtain ⟨env, err⟩ := v
    cases err with
    | some e => simp only [he] at hrun; cases hrun
    | none =>
      simp only [he] at hrun
      cases hst : h.start (s.command env) with
      | error e => simp only [hst] at hrun; cases hrun
      | ok p =>
        simp only [hst, Option.some.injEq, RunState.blocked.injEq] at hrun
        obtain ⟨rfl, rfl, rfl⟩ := hrun
        exact ⟨h0, rfl, rfl, h0⟩

/-- C7 on the sample sandbox: `Run` is blocked on process 42 and `Signal` with signal 15
returns the not-started error without signalling it. -/
theorem C7_signal_while_running_witness :
    sampleSandbox.runStart sampleSandboxHost =
      some (RunState.blocked sampleSandbox
        (sampleSandbox.command ["FOO=bar".toList, "BAZ=qux".toList] |>.withProcess 42) 42) ∧
    sampleSandbox.Signal sampleSandboxHost 15 = (some "sandbox is not started", none) :=
  ⟨by decide,
   (C7_signal_while_running sampleSandboxHost sampleSandbox sampleSandbox
     (sampleSandbox.command ["FOO=bar".toList, "BAZ=qux".toList] |>.withProcess 42) 42 15
     (by decide) (by decide)).2.2.2⟩

/-! ## Claims on `getMetaDBTar` -/

theorem openSource_isCloser (h : Host) (w w1 : World) (src : Str) (u : URL) (reader : Layer)
    (ho : openSource h w src u = (Except.ok reader, w1)) :
    reader.isCloser = true ∧ (w1 = w ∨ w1 = w.log (Event.httpGet src)) := by
  unfold openSource at ho
  split at ho
  · split at ho
    · cases ho
    · split at ho
      · cases ho
      · simp only [Prod.mk.injEq, Except.ok.injEq] at ho
        obtain ⟨rfl, rfl⟩ := ho
        exact ⟨rfl, Or.inl rfl⟩
  · split at ho
    · split at ho
      · cases ho
      · split at ho
        · cases ho
        · simp only [Prod.mk.injEq, Except.ok.injEq] at ho
          obtain ⟨rfl, rfl⟩ := ho
          exact ⟨rfl, Or.inr rfl⟩
    · cases ho

theorem close_single (reader : Layer) (w : World) (hc : reader.isCloser = true) :
    underLayingCloser.Close { readers := [reader] } w = w.log (Event.closed reader.kind) := by
  simp [underLayingCloser.Close, hc]

/-- C2, amended: once the source of a locator is opened, the extension of the last element
of the url path alone picks the decoder, by exact match. With `.tgz`, `.flist`, `.gz` the
result is the two layers source and gzip reader when the gzip reader can be made, and
otherwise no stream, the error of the gzip reader, and the source closed; with `.tbz2`,
`.bz2` it is the two layers source and bzip2 reader and no error; with `.tar` it is the
source alone; with any other extension it is no stream and the unknown format error that
names the extension. -/
theorem C2_decoder_by_extension (h : Host) (w w1 : World) (src : Str) (u : URL)
    (reader : Layer) (hu : h.urlParse src = Except.ok u)
    (ho : openSource h w src u = (Except.ok reader, w1)) :
    ((Ext (Base u.Path) = ".tgz".toList ∨ Ext (Base u.Path) = ".flist".toList ∨
        Ext (Base u.Path) = ".gz".toList) →
      (∀ r, h.gzipNewReader reader.stream = Except.ok r →
        getMetaDBTar h w src =
          (Except.ok { readers := [reader, { kind := LayerKind.gzip, stream := r }] }, w1)) ∧
      (∀ e, h.gzipNewReader reader.stream = Except.error e →
        getMetaDBTar h w src = (Except.error e, w1.log (Event.closed reader.kind)))) ∧
    ((Ext (Base u.Path) = ".tbz2".toList ∨ Ext (Base u.Path) = ".bz2".toList) →
      getMetaDBTar h w src =
        (Except.ok { readers := [reader,
          { kind := LayerKind.bzip2, stream := h.bzip2NewReader reader.stream }] }, w1)) ∧
    (Ext (Base u.Path) = ".tar".toList →
      getMetaDBTar h w src = (Except.ok { readers := [reader] }, w1)) ∧
    (Ext (Base u.Path) ∉ knownExts →
      getMetaDBTar h w src =
        (Except.error ("unknown flist format " ++ String.mk (Ext (Base u.Path))), w1)) := by
  have hc := (openSource_isCloser h w w1 src u reader ho).1
  refine ⟨?_, ?_, ?_, ?_⟩
  · intro hext
    refine ⟨?_, ?_⟩
    · intro r hr
      unfold getMetaDBTar
      simp only [hu, ho, if_pos hext, hr, List.nil_append, List.singleton_append]
    · intro e he
      unfold getMetaDBTar
      simp only [hu, ho, if_pos hext, he, List.nil_append, close_single reader w1 hc]
  · intro hext
    have hn : ¬ (Ext (Base u.Path) = ".tgz".toList ∨ Ext (Base u.Path) = ".flist".toList ∨
        Ext (Base u.Path) = ".gz".toList) := by
      rcases hext with h1 | h1 <;> rw [h1] <;> decide
    unfold getMetaDBTar
    simp only [hu, ho, if_neg hn, if_pos hext, List.nil_append, List.singleton_append]
  · intro hext
    have hn : ¬ (Ext (Base u.Path) = ".tgz".toList ∨ Ext (Base u.Path) = ".flist".toList ∨
        Ext (Base u.Path) = ".gz".toList) := by
      rw [hext]; decide
    have hn2 : ¬ (Ext (Base u.Path) = ".tbz2".toList ∨ Ext (Base u.Path) = ".bz2".toList) := by
      rw [hext]; decide
    unfold getMetaDBTar
    simp only [hu, ho, if_neg hn, if_neg hn2, if_pos hext, List.nil_append]
  · intro hext
    simp only [knownExts, List.mem_cons, List.mem_singleton, List.not_mem_nil, or_false,
      not_or] at hext
    obtain ⟨h1, h2, h3, h4, h5, h6⟩ := hext
    unfold getMetaDBTar
    simp only [hu, ho, h1, h2, h3, h4, h5, h6, or_self, if_false]

/-- C2, amended, on the sample host: `x.tar` is opened and gives the source alone, and the
same file under the names `x.TAR`, `x.zip` and `x` gives the unknown format error. -/
theorem C2_decoder_by_extension_witness :
    getMetaDBTar (sampleHost sampleArchive false false none) sampleWorld "x.tar".toList =
      (Except.ok { readers :=
        [{ kind := LayerKind.file "x.tar".toList, stream := { data := [1, 2, 3], fail := none } }] },
       sampleWorld) ∧
    (getMetaDBTar (sampleHost sampleArchive false false none) sampleWorld "x.TAR".toList).1 =
      Except.error "unknown flist format .TAR" ∧
    (getMetaDBTar (sampleHost sampleArchive false false none) sampleWorld "x.zip".toList).1 =
      Except.error "unknown flist format .zip" ∧
    (getMetaDBTar (sampleHost sampleArchive false false none) sampleWorld "x".toList).1 =
      Except.error "unknown flist format " :=
  ⟨(C2_decoder_by_extension (sampleHost sampleArchive false false none) sampleWorld sampleWorld
      "x.tar".toList { Scheme := [], Path := "x.tar".toList }
      { kind := LayerKind.file "x.tar".toList, stream := { data := [1, 2, 3], fail := none } }
      rfl rfl).2.2.1 (by decide),
   by rfl, by rfl, by rfl⟩

/-- C2 as stated fails: the file `x.gz` of the sample world is opened and its extension is
`.gz`, but it does not begin with a gzip header, and `getMetaDBTar` returns the error of
the gzip reader instead of a stream of two layers. -/
theorem C2_counterexample :
    openSource (sampleHost sampleArchive false false none) sampleWorld "x.gz".toList
        { Scheme := [], Path := "x.gz".toList } =
      (Except.ok { kind := LayerKind.file "x.gz".toList,
                   stream := { data := [1, 2, 3], fail := none } }, sampleWorld) ∧
    Ext (Base "x.gz".toList) = ".gz".toList ∧
    (getMetaDBTar (sampleHost sampleArchive false false none) sampleWorld "x.gz".toList).1 =
      Except.error "gzip: invalid header" ∧
    ¬ ∃ source decoder : Layer,
      (getMetaDBTar (sampleHost sampleArchive false false none) sampleWorld "x.gz".toList).1 =
        Except.ok { readers := [source, decoder] } := by
  refine ⟨rfl, by decide, rfl, ?_⟩
  rintro ⟨s, d, hsd⟩
  have he : (getMetaDBTar (sampleHost sampleArchive false false none) sampleWorld
      "x.gz".toList).1 = Except.error "gzip: invalid header" := rfl
  rw [he] at hsd
  cases hsd

/-- C3: for a locator whose source is opened and whose extension is not a known one,
`getMetaDBTar` returns the unknown format error and leaves the world as it was right after
the open: no reader is closed between the open and the return. -/
theorem C3_unknown_format_leaves_source_open (h : Host) (w w1 : World) (src : Str) (u : URL)
    (reader : Layer) (hu : h.urlParse src = Except.ok u)
    (ho : openSource h w src u = (Except.ok reader, w1))
    (hext : Ext (Base u.Path) ∉ knownExts) :
    getMetaDBTar h w src =
      (Except.error ("unknown flist format " ++ String.mk (Ext (Base u.Path))), w1) ∧
    reader.isCloser = true ∧
    ∀ k, Event.closed k ∈ (getMetaDBTar h w src).2.trace → Event.closed k ∈ w.trace := by
  have hres : getMetaDBTar h w src =
      (Except.error ("unknown flist format " ++ String.mk (Ext (Base u.Path))), w1) := by
    simp only [knownExts, List.mem_cons, List.mem_singleton, List.not_mem_nil, or_false,
      not_or] at hext
    obtain ⟨h1, h2, h3, h4, h5, h6⟩ := hext
    unfold getMetaDBTar
    simp only [hu, ho, h1, h2, h3, h4, h5, h6, or_self, if_false]
  obtain ⟨hc, hw⟩ := openSource_isCloser h w w1 src u reader ho
  refine ⟨hres, hc, ?_⟩
  intro k hk
  rw [hres] at hk
  rcases hw with rfl | rfl
  · exact hk
  · simp only [World.log, List.mem_append, List.mem_singleton] at hk
    rcases hk with hk | hk
    · exact hk
    · cases hk

/-- C3 on the sample host: the existing file `x.zip` is opened, the unknown format error is
returned, and no close is recorded. -/
theorem C3_unknown_format_leaves_source_open_witness :
    (getMetaDBTar (sampleHost sampleArchive false false none) sampleWorld "x.zip".toList).1 =
      Except.error "unknown flist format .zip" ∧
    ∀ k, Event.closed k ∉
      (getMetaDBTar (sampleHost sampleArchive false false none) sampleWorld "x.zip".toList).2.trace :=
  ⟨congrArg Prod.fst
      (C3_unknown_format_leaves_source_open (sampleHost sampleArchive false false none)
        sampleWorld sampleWorld "x.zip".toList { Scheme := [], Path := "x.zip".toList }
        { kind := LayerKind.file "x.zip".toList, stream := { data := [1, 2, 3], fail := none } }
        rfl rfl (by decide)).1,
   fun k hk => by
    have := (C3_unknown_format_leaves_source_open (sampleHost sampleArchive false false none)
        sampleWorld sampleWorld "x.zip".toList { Scheme := [], Path := "x.zip".toList }
        { kind := LayerKind.file "x.zip".toList, stream := { data := [1, 2, 3], fail := none } }
        rfl rfl (by decide)).2.2 k hk
    simp [sampleWorld] at this⟩

/-! ## Claims on the controller -/

theorem Stop_of_none (h : Host) (w : World) (c : Chroot) (hc : c.fs = none) :
    c.Stop h w = (Outcome.ret (some errNotRunning), c, w) := by
  unfold Chroot.Stop
  simp only [hc]
  rfl

theorem unPrepare_eq (h : Host) (w : World) (c : Chroot) (root : Str)
    (hr : c.MountRoot h = Outcome.ret root) :
    c.unPrepare h w = (Outcome.ret (), { w with trace := w.trace ++ unbindTrace root }) := by
  unfold Chroot.unPrepare
  simp only [hr, unPrepareBinds, World.log, unbindTrace, List.append_assoc, List.singleton_append,
    List.cons_append, List.nil_append]

theorem Stop_of_handle (h : Host) (w : World) (c : Chroot) (f : Nat) (root ns : Str)
    (hf : c.fs = some f) (hr : c.MountRoot h = Outcome.ret root)
    (hn : c.WorkDirRoot h = Outcome.ret ns) :
    c.Stop h w =
      (Outcome.ret (h.fsUnmount { w with trace := w.trace ++ unbindTrace root } f), c,
       { fs := removeAll w.fs (resolve h.cwd (ns ++ ".db".toList)),
         trace := w.trace ++ teardownTrace root ns f }) := by
  unfold Chroot.Stop
  simp only [hf, hn, unPrepare_eq h w c root hr, World.removeAll, World.log, teardownTrace,
    List.append_assoc, List.singleton_append]

/-- C5: `Stop` on a controller without handle returns the not-running error and leaves the
world as it is. `Stop` on a controller with a handle makes the forced, detached unmounts of
`proc`, `dev`, `sys` under the mount root in this order, their results unused, then calls
`Unmount` of the handle, then removes `<WorkRoot>.db`, whatever `Unmount` returned, and
returns exactly what `Unmount` returned. -/
theorem C5_stop (h : Host) (w : World) (c : Chroot) :
    (c.fs = none → c.Stop h w = (Outcome.ret (some errNotRunning), c, w)) ∧
    (∀ (f : Nat) (root ns : Str), c.fs = some f → c.MountRoot h = Outcome.ret root →
      c.WorkDirRoot h = Outcome.ret ns →
      (c.Stop h w).1 =
        Outcome.ret (h.fsUnmount { w with trace := w.trace ++ unbindTrace root } f) ∧
      (c.Stop h w).2.2.trace = w.trace ++
        [Event.forceUnmount (Join [root, "proc".toList]),
         Event.forceUnmount (Join [root, "dev".toList]),
         Event.forceUnmount (Join [root, "sys".toList]),
         Event.fsUnmount f, Event.removeAll (ns ++ ".db".toList)] ∧
      (c.Stop h w).2.2.fs = removeAll w.fs (resolve h.cwd (ns ++ ".db".toList))) := by
  refine ⟨Stop_of_none h w c, ?_⟩
  intro f root ns hf hr hn
  rw [Stop_of_handle h w c f root ns hf hr hn]
  exact ⟨rfl, rfl, rfl⟩

/-- C5 on the sample host, where `Unmount` of handle 7 fails: without handle, `Stop`
returns the not-running error and records nothing; with handle 7 it records the three
unmounts, the `Unmount` and the removal, and returns the error of `Unmount`. -/
theorem C5_stop_witness :
    ((sampleChroot.Stop (sampleHost sampleArchive false false (some "busy")) sampleWorld).1 =
        Outcome.ret (some errNotRunning) ∧
      (sampleChroot.Stop (sampleHost sampleArchive false false (some "busy"))
        sampleWorld).2.2.trace = []) ∧
    (({ sampleChroot with fs := some 7 }.Stop (sampleHost sampleArchive false false (some "busy"))
        sampleWorld).1 = Outcome.ret (some "busy") ∧
      ({ sampleChroot with fs := some 7 }.Stop (sampleHost sampleArchive false false (some "busy"))
        sampleWorld).2.2.trace =
        [Event.forceUnmount "/home/u/.zbundle/id1/proc".toList,
         Event.forceUnmount "/home/u/.zbundle/id1/dev".toList,
         Event.forceUnmount "/home/u/.zbundle/id1/sys".toList,
         Event.fsUnmount 7, Event.removeAll "/home/u/.zbundle.wd/id1.db".toList]) :=
  ⟨by
    have := (C5_stop (sampleHost sampleArchive false false (some "busy")) sampleWorld
      sampleChroot).1 rfl
    rw [this]; exact ⟨rfl, rfl⟩,
   by
    have := (C5_stop (sampleHost sampleArchive false false (some "busy")) sampleWorld
      { sampleChroot with fs := some 7 }).2 7 "/home/u/.zbundle/id1".toList
      "/home/u/.zbundle.wd/id1".toList rfl (by decide) (by decide)
    exact ⟨this.1.trans rfl, this.2.1.trans (by decide)⟩⟩

/-- C8: when the mountpoint probe reports the mount root as a mount point, `Start` returns
the already-running error, the controller and its handle are as before, the file system is
as before, and the only call made is the probe. -/
theorem C8_start_already_running (h : Host) (w : World) (c : Chroot) (root : Str)
    (hr : c.MountRoot h = Outcome.ret root) (hm : h.mountpoint w root = true) :
    c.Start h w = (Outcome.ret (some errAlreadyRunning), c, w.log (Event.probed root)) ∧
    (c.Start h w).2.1.fs = c.fs ∧
    (c.Start h w).2.2.fs = w.fs ∧
    (c.Start h w).2.2.trace = w.trace ++ [Event.probed root] := by
  have hs : c.Start h w =
      (Outcome.ret (some errAlreadyRunning), c, w.log (Event.probed root)) := by
    unfold Chroot.Start
    simp only [hr, isMount, hm]
    rfl
  rw [hs]
  exact ⟨rfl, rfl, rfl, rfl⟩

/-- C8 on the sample host with a mounted mount root: `Start` returns the already-running
error after the probe alone. -/
theorem C8_start_already_running_witness :
    (sampleChroot.Start (sampleHost sampleArchive true false none) sampleWorld).1 =
      Outcome.ret (some errAlreadyRunning) ∧
    (sampleChroot.Start (sampleHost sampleArchive true false none) sampleWorld).2.1 =
      sampleChroot ∧
    (sampleChroot.Start (sampleHost sampleArchive true false none) sampleWorld).2.2.trace =
      [Event.probed "/home/u/.zbundle/id1".toList] :=
  ⟨congrArg Prod.fst
      (C8_start_already_running (sampleHost sampleArchive true false none) sampleWorld
        sampleChroot "/home/u/.zbundle/id1".toList (by decide) rfl).1,
   congrArg (fun r => r.2.1)
      (C8_start_already_running (sampleHost sampleArchive true false none) sampleWorld
        sampleChroot "/home/u/.zbundle/id1".toList (by decide) rfl).1,
   (C8_start_already_running (sampleHost sampleArchive true false none) sampleWorld
        sampleChroot "/home/u/.zbundle/id1".toList (by decide) rfl).2.2.2.trans (by decide)⟩

theorem Start_unfold (h : Host) (w : World) (c : Chroot) (home : Str)
    (hu : h.currentUser = some home)
    (hm : h.mountpoint w (Join [home, Join [".zbundle".toList, c.ID]]) = false) :
    c.Start h w =
      match getMetaDB h (worldAtFetch h w (Join [home, Join [".zbundle".toList, c.ID]]))
          (Join [home, Join [".zbundle.wd".toList, c.ID]]) c.Flist with
      | ((_, some err), w3) => (Outcome.ret (some err), c, w3)
      | ((metaPath, none), w3) =>
        match h.newStore w3 metaPath with
        | Except.error err => (Outcome.ret (some err), c, w3.log (Event.newStore metaPath))
        | Except.ok metaStore =>
          match h.newSimpleStorage (w3.log (Event.newStore metaPath)) c.Storage with
          | Except.error err => (Outcome.ret (some err), c, worldAtMount w3 metaPath c.Storage)
          | Except.ok stor =>
            match h.fsMount (worldAtMount w3 metaPath c.Storage)
                { Backend := Join [home, Join [".zbundle.wd".toList, c.ID]],
                  Target := Join [home, Join [".zbundle".toList, c.ID]],
                  MetaStore := metaStore, Storage := stor,
                  Cache := Join [Join [home, Join [".zbundle.cache".toList]]] } with
            | Except.error err =>
              (Outcome.ret (some err), c,
                (worldAtMount w3 metaPath c.Storage).log (Event.fsMount
                  { Backend := Join [home, Join [".zbundle.wd".toList, c.ID]],
                    Target := Join [home, Join [".zbundle".toList, c.ID]],
                    MetaStore := metaStore, Storage := stor,
                    Cache := Join [Join [home, Join [".zbundle.cache".toList]]] }))
            | Except.ok fs =>
              (({ c with fs := some fs } : Chroot).prepare h
                  ((worldAtMount w3 metaPath c.Storage).log (Event.fsMount
                    { Backend := Join [home, Join [".zbundle.wd".toList, c.ID]],
                      Target := Join [home, Join [".zbundle".toList, c.ID]],
                      MetaStore := metaStore, Storage := stor,
                      Cache := Join [Join [home, Join [".zbundle.cache".toList]]] })) |>.1,
                { c with fs := some fs },
                ({ c with fs := some fs } : Chroot).prepare h
                  ((worldAtMount w3 metaPath c.Storage).log (Event.fsMount
                    { Backend := Join [home, Join [".zbundle.wd".toList, c.ID]],
                      Target := Join [home, Join [".zbundle".toList, c.ID]],
                      MetaStore := metaStore, Storage := stor,
                      Cache := Join [Join [home, Join [".zbundle.cache".toList]]] })) |>.2) := by
  unfold Chroot.Start
  simp only [Chroot.MountRoot, Chroot.WorkDirRoot, Chroot.getBaseDir, hu, isMount, hm]
  rfl

/-- C6: on a controller without handle whose mount root is not reported mounted, an error
of `getMetaDB` (fetching or materializing), of `meta.NewStore`, of
`storage.NewSimpleStorage` or of `g8ufs.Mount` is returned by `Start` with the controller
unchanged, so still without handle, and `Stop` on it returns the not-running error. When
the mount succeeds with a handle, `Start` returns what `prepare` returns, an error
included, with that handle stored, and `Stop` on the controller then runs the teardown
and returns what `Unmount` of the handle returns. -/
theorem C6_start_failure_states (h : Host) (w : World) (c : Chroot) (home : Str)
    (hc : c.fs = none) (hu : h.currentUser = some home)
    (hm : h.mountpoint w (mountRootOf home c.ID) = false) :
    (∀ w1, c.Stop h w1 = (Outcome.ret (some errNotRunning), c, w1)) ∧
    (∀ p e w3,
      getMetaDB h (worldAtFetch h w (mountRootOf home c.ID)) (workRootOf home c.ID) c.Flist =
        ((p, some e), w3) →
      c.Start h w = (Outcome.ret (some e), c, w3)) ∧
    (∀ mp w3,
      getMetaDB h (worldAtFetch h w (mountRootOf home c.ID)) (workRootOf home c.ID) c.Flist =
        ((mp, none), w3) →
      (∀ e, h.newStore w3 mp = Except.error e →
        (c.Start h w).1 = Outcome.ret (some e) ∧ (c.Start h w).2.1 = c) ∧
      (∀ ms, h.newStore w3 mp = Except.ok ms →
        (∀ e, h.newSimpleStorage (w3.log (Event.newStore mp)) c.Storage = Except.error e →
          (c.Start h w).1 = Outcome.ret (some e) ∧ (c.Start h w).2.1 = c) ∧
        (∀ st, h.newSimpleStorage (w3.log (Event.newStore mp)) c.Storage = Except.ok st →
          (∀ e, h.fsMount (worldAtMount w3 mp c.Storage) (mountOptions home c.ID ms st) =
              Except.error e →
            (c.Start h w).1 = Outcome.ret (some e) ∧ (c.Start h w).2.1 = c) ∧
          (∀ f, h.fsMount (worldAtMount w3 mp c.Storage) (mountOptions home c.ID ms st) =
              Except.ok f →
            (c.Start h w).2.1 = { c with fs := some f } ∧
            ((c.Start h w).1, (c.Start h w).2.2) =
              ({ c with fs := some f } : Chroot).prepare h
                ((worldAtMount w3 mp c.Storage).log
                  (Event.fsMount (mountOptions home c.ID ms st))) ∧
            ∀ w1,
              (({ c with fs := some f } : Chroot).Stop h w1).1 =
                Outcome.ret (h.fsUnmount
                  { w1 with trace := w1.trace ++ unbindTrace (mountRootOf home c.ID) } f) ∧
              (({ c with fs := some f } : Chroot).Stop h w1).2.2.trace =
                w1.trace ++ teardownTrace (mountRootOf home c.ID) (workRootOf home c.ID) f)))) := by
  have hS := Start_unfold h w c home hu hm
  refine ⟨fun w1 => Stop_of_none h w1 c hc, ?_, ?_⟩
  · intro p e w3 hg
    rw [hS]
    simp only [mountRootOf, workRootOf] at hg
    simp only [hg]
  · intro mp w3 hg
    simp only [mountRootOf, workRootOf] at hg
    refine ⟨?_, ?_⟩
    · intro e he
      rw [hS]; simp only [hg, he, and_self]
    · intro ms hms
      refine ⟨?_, ?_⟩
      · intro e he
        rw [hS]; simp only [hg, hms, he, and_self]
      · intro st hst
        refine ⟨?_, ?_⟩
        · intro e he
          simp only [mountOptions, mountRootOf, workRootOf] at he
          rw [hS]; simp only [hg, hms, hst, he, and_self]
        · intro f hf
          simp only [mountOptions, mountRootOf, workRootOf] at hf
          refine ⟨?_, ?_, ?_⟩
          · rw [hS]; simp only [hg, hms, hst, hf]
          · rw [hS]; simp only [hg, hms, hst, hf]; rfl
          · intro w1
            have hr : ({ c with fs := some f } : Chroot).MountRoot h =
                Outcome.ret (mountRootOf home c.ID) := by
              simp only [Chroot.MountRoot, Chroot.getBaseDir, hu, mountRootOf]
            have hn : ({ c with fs := some f } : Chroot).WorkDirRoot h =
                Outcome.ret (workRootOf home c.ID) := by
              simp only [Chroot.WorkDirRoot, Chroot.getBaseDir, hu, workRootOf]
            rw [Stop_of_handle h w1 _ f _ _ rfl hr hn]
            exact ⟨rfl, rfl⟩

/-- C6 on the sample host: with the locator `x.zip` the fetch fails, `Start` returns its
error and the controller has no handle; with `x.tar` and a failing bind of `/dev` the
mount gives handle 7, `Start` returns the error of the bind, and handle 7 is stored. -/
theorem C6_start_failure_states_witness :
    (({ sampleChroot with Flist := "x.zip".toList } : Chroot).Start
        (sampleHost sampleArchive false false none) sampleWorld).1 =
      Outcome.ret (some "unknown flist format .zip") ∧
    (({ sampleChroot with Flist := "x.zip".toList } : Chroot).Start
        (sampleHost sampleArchive false false none) sampleWorld).2.1.fs = none ∧
    (sampleChroot.Start (sampleHost sampleArchive false true none) sampleWorld).1 =
      Outcome.ret (some "mount: operation not permitted") ∧
    (sampleChroot.Start (sampleHost sampleArchive false true none) sampleWorld).2.1.fs =
      some 7 := by
  have hA := (C6_start_failure_states (sampleHost sampleArchive false false none) sampleWorld
    { sampleChroot with Flist := "x.zip".toList } "/home/u".toList rfl rfl rfl).2.1
    [] "unknown flist format .zip" _ rfl
  have hB := ((((C6_start_failure_states (sampleHost sampleArchive false true none) sampleWorld
    sampleChroot "/home/u".toList rfl rfl rfl).2.2
    "/home/u/.zbundle.wd/id1.db".toList _ rfl).2 1 rfl).2 2 rfl).2 7 rfl
  refine ⟨?_, ?_, ?_, ?_⟩
  · rw [hA]
  · rw [hA]; rfl
  · have := congrArg Prod.fst hB.2.1
    exact this.trans rfl
  · rw [hB.1]

/-- C9 as stated fails: on the sample host `Start` succeeds and `Stop` runs its teardown,
and a further `Stop` with no `Start` in between does not return the not-running error: it
unmounts and removes again. -/
theorem C9_counterexample :
    sampleStarted.1 = Outcome.ret none ∧
    sampleStopped.1 = Outcome.ret none ∧
    sampleStopped.2.2.trace = sampleStarted.2.2.trace ++
      teardownTrace "/home/u/.zbundle/id1".toList "/home/u/.zbundle.wd/id1".toList 7 ∧
    sampleStoppedAgain.1 ≠ Outcome.ret (some errNotRunning) ∧
    sampleStoppedAgain.2.2.trace = sampleStopped.2.2.trace ++
      [Event.forceUnmount "/home/u/.zbundle/id1/proc".toList,
       Event.forceUnmount "/home/u/.zbundle/id1/dev".toList,
       Event.forceUnmount "/home/u/.zbundle/id1/sys".toList,
       Event.fsUnmount 7, Event.removeAll "/home/u/.zbundle.wd/id1.db".toList] := by
  refine ⟨rfl, rfl, by decide, by decide, by decide⟩

/-- C9, amended: `Stop` never changes the controller, so a stored handle stays stored.
On a controller with a handle, so also after a `Start` that stored it and a `Stop` that ran
its teardown, a further `Stop` runs the same teardown again, the three unmounts, `Unmount`
of the handle and the removal of `<WorkRoot>.db`, and returns what `Unmount` returns; the
not-running error with no unmount and no removal is the result on a controller without
handle only. -/
theorem C9_stop_keeps_handle (h : Host) (w : World) (c : Chroot) :
    (c.Stop h w).2.1 = c ∧
    (c.fs = none → c.Stop h w = (Outcome.ret (some errNotRunning), c, w)) ∧
    (∀ (f : Nat) (root ns : Str), c.fs = some f → c.MountRoot h = Outcome.ret root →
      c.WorkDirRoot h = Outcome.ret ns →
      ((c.Stop h w).2.1.Stop h (c.Stop h w).2.2).1 =
        Outcome.ret (h.fsUnmount
          { (c.Stop h w).2.2 with
            trace := (c.Stop h w).2.2.trace ++ unbindTrace root } f) ∧
      ((c.Stop h w).2.1.Stop h (c.Stop h w).2.2).2.2.trace =
        w.trace ++ teardownTrace root ns f ++ teardownTrace root ns f) := by
  have hk : (c.Stop h w).2.1 = c := by
    unfold Chroot.Stop
    cases c.fs with
    | none => rfl
    | some f =>
      simp only
      cases c.WorkDirRoot h with
      | panicked m => rfl
      | ret ns =>
        simp only
        cases c.unPrepare h w with
        | mk o w1 => cases o <;> rfl
  refine ⟨hk, Stop_of_none h w c, ?_⟩
  intro f root ns hf hr hn
  rw [hk, Stop_of_handle h w c f root ns hf hr hn, Stop_of_handle h _ c f root ns hf hr hn]
  exact ⟨rfl, rfl⟩

/-- C9, amended, on the started sample controller: the second `Stop` returns what
`Unmount` returns and the teardown is recorded twice after the calls of `Start`. -/
theorem C9_stop_keeps_handle_witness :
    sampleStarted.2.1.fs = some 7 ∧
    sampleStoppedAgain.1 = Outcome.ret none ∧
    sampleStoppedAgain.2.2.trace = sampleStarted.2.2.trace ++
      teardownTrace "/home/u/.zbundle/id1".toList "/home/u/.zbundle.wd/id1".toList 7 ++
      teardownTrace "/home/u/.zbundle/id1".toList "/home/u/.zbundle.wd/id1".toList 7 :=
  ⟨rfl,
   ((C9_stop_keeps_handle (sampleHost sampleArchive false false none) sampleStarted.2.2
      sampleStarted.2.1).2.2 7 "/home/u/.zbundle/id1".toList "/home/u/.zbundle.wd/id1".toList
      rfl (by decide) (by decide)).1.trans rfl,
   (C9_stop_keeps_handle (sampleHost sampleArchive false false none) sampleStarted.2.2
      sampleStarted.2.1).2.2 7 "/home/u/.zbundle/id1".toList "/home/u/.zbundle.wd/id1".toList
      rfl (by decide) (by decide) |>.2⟩

/-! ## The file system operations -/

theorem node_set_same (fs : FS) (l : Loc) (n : Node) (hl : l ≠ []) :
    (fs.set l n).node l = some n := by
  simp [FS.node, FS.set, hl]

theorem node_set_other (fs : FS) (l k : Loc) (n : Node) (hk : k ≠ l) :
    (fs.set l n).node k = fs.node k := by
  simp [FS.node, FS.set, hk]

/-- `MkdirAll` changes a location only from nothing to a directory. -/
theorem mkdirAll_node (l : Loc) : ∀ (fs fs1 : FS) (r : Option Err), mkdirAll fs l = (r, fs1) →
    ∀ k, fs1.node k = fs.node k ∨ (fs.node k = none ∧ fs1.node k = some Node.dir) := by
  induction l with
  | nil =>
    intro fs fs1 r hm k
    simp only [mkdirAll, Prod.mk.injEq] at hm
    rw [← hm.2]; exact Or.inl rfl
  | cons seg parent ih =>
    intro fs fs1 r hm k
    unfold mkdirAll at hm
    cases hn : fs.node (seg :: parent) with
    | some n =>
      cases n with
      | dir =>
        simp only [hn, Prod.mk.injEq] at hm
        rw [← hm.2]; exact Or.inl rfl
      | file b =>
        simp only [hn, Prod.mk.injEq] at hm
        rw [← hm.2]; exact Or.inl rfl
    | none =>
      simp only [hn] at hm
      cases hp : mkdirAll fs parent with
      | mk rp fsp =>
        have hih := ih fs fsp rp hp
        cases rp with
        | some e =>
          simp only [hp, Prod.mk.injEq] at hm
          rw [← hm.2]; exact hih k
        | none =>
          simp only [hp, Prod.mk.injEq] at hm
          rw [← hm.2]
          by_cases hk : k = seg :: parent
          · subst hk
            right
            exact ⟨hn, node_set_same fsp _ _ (by simp)⟩
          · rw [node_set_other fsp _ k _ hk]
            exact hih k

theorem mkdirAll_file (l : Loc) (fs fs1 : FS) (r : Option Err) (hm : mkdirAll fs l = (r, fs1))
    (k : Loc) (b : Bytes) (hk : fs.node k = some (Node.file b)) :
    fs1.node k = some (Node.file b) := by
  rcases mkdirAll_node l fs fs1 r hm k with h1 | ⟨h1, _⟩
  · rw [h1, hk]
  · rw [hk] at h1; cases h1

theorem create_ok (fs fs1 : FS) (l : Loc) (hc : create fs l = (none, fs1)) :
    l ≠ [] ∧ fs1 = fs.set l (Node.file []) := by
  unfold create at hc
  cases l with
  | nil => simp at hc
  | cons seg parent =>
    refine ⟨by simp, ?_⟩
    simp only at hc
    cases hp : fs.node parent with
    | none => simp [hp] at hc
    | some n =>
      cases n with
      | file b => simp [hp] at hc
      | dir =>
        simp only [hp] at hc
        cases hl : fs.node (seg :: parent) with
        | none => simp only [hl, Prod.mk.injEq, true_and] at hc; exact hc.symm
        | some m =>
          cases m with
          | dir => simp [hl] at hc
          | file b => simp only [hl, Prod.mk.injEq, true_and] at hc; exact hc.symm

/-- One entry that is not a directory, extracted without error: its file holds its
payload and every other file is as before. -/
theorem extractEntry_file (cwd : Loc) (db : Str) (e : Entry) (fs fs1 : FS)
    (hd : e.header.IsDir = false) (hx : extractEntry cwd db e fs = (none, fs1)) :
    fs1.node (resolve cwd (entryFile db e.header)) = some (Node.file e.data) ∧
    ∀ k, k ≠ resolve cwd (entryFile db e.header) → ∀ b, fs.node k = some (Node.file b) →
      fs1.node k = some (Node.file b) := by
  unfold extractEntry at hx
  simp only [hd, Bool.false_eq_true, if_false] at hx
  cases hm : mkdirAll fs (resolve cwd (entryDir db e.header)) with
  | mk rm fsm =>
    cases rm with
    | some err => simp [hm] at hx
    | none =>
      simp only [hm] at hx
      cases hc : create fsm (resolve cwd (entryFile db e.header)) with
      | mk rc fsc =>
        cases rc with
        | some err => simp [hc] at hx
        | none =>
          simp only [hc, Prod.mk.injEq] at hx
          obtain ⟨hne, hset⟩ := create_ok fsm fsc _ hc
          rw [← hx.2]
          refine ⟨node_set_same _ _ _ hne, ?_⟩
          intro k hk b hb
          rw [node_set_other _ _ k _ hk, hset, node_set_other _ _ k _ hk]
          exact mkdirAll_file _ fs fsm none hm k b hb

theorem extractEntry_dir (cwd : Loc) (db : Str) (e : Entry) (fs : FS)
    (hd : e.header.IsDir = true) : extractEntry cwd db e fs = (none, fs) := by
  unfold extractEntry
  simp only [hd, if_true]

/-- Files that no later entry maps to survive the rest of the loop. -/
theorem extractLoop_file (cwd : Loc) (db : Str) (es : List Entry) :
    ∀ (fail : Option Err) (fs fs1 : FS), extractLoop cwd db es fail fs = (none, fs1) →
    ∀ k b, fs.node k = some (Node.file b) →
      (∀ e ∈ es, e.header.IsDir = false → resolve cwd (entryFile db e.header) ≠ k) →
      fs1.node k = some (Node.file b) := by
  induction es with
  | nil =>
    intro fail fs fs1 hx k b hk _
    simp only [extractLoop, Prod.mk.injEq] at hx
    rw [← hx.2]; exact hk
  | cons e rest ih =>
    intro fail fs fs1 hx k b hk hne
    unfold extractLoop at hx
    cases he : extractEntry cwd db e fs with
    | mk r fse =>
      cases r with
      | some err => simp [he] at hx
      | none =>
        simp only [he] at hx
        have hk1 : fse.node k = some (Node.file b) := by
          cases hd : e.header.IsDir with
          | true =>
            rw [extractEntry_dir cwd db e fs hd] at he
            simp only [Prod.mk.injEq, true_and] at he
            rw [← he]; exact hk
          | false =>
            exact (extractEntry_file cwd db e fs fse hd he).2 k
              (fun hh => hne e (List.mem_cons_self _ _) hd hh.symm) b hk
        exact ih fail fse fs1 hx k b hk1
          (fun e1 h1 hd1 => hne e1 (List.mem_cons_of_mem _ h1) hd1)

theorem extractLoop_cons (cwd : Loc) (db : Str) (e : Entry) (rest : List Entry)
    (fail : Option Err) (fs : FS) :
    extractLoop cwd db (e :: rest) fail fs =
      match extractEntry cwd db e fs with
      | (some err, fs1) => (some err, fs1)
      | (none, fs1) => extractLoop cwd db rest fail fs1 := rfl

theorem extractLoop_append (cwd : Loc) (db : Str) (es1 es2 : List Entry) :
    ∀ (fail : Option Err) (fs fs2 : FS),
    extractLoop cwd db (es1 ++ es2) fail fs = (none, fs2) →
    ∃ fs1, extractLoop cwd db es1 none fs = (none, fs1) ∧
      extractLoop cwd db es2 fail fs1 = (none, fs2) := by
  induction es1 with
  | nil =>
    intro fail fs fs2 hx
    exact ⟨fs, rfl, hx⟩
  | cons e rest ih =>
    intro fail fs fs2 hx
    simp only [List.cons_append] at hx
    rw [extractLoop_cons] at hx ⊢
    cases he : extractEntry cwd db e fs with
    | mk r fse =>
      cases r with
      | some err => simp [he] at hx
      | none =>
        simp only [he] at hx ⊢
        exact ih fail fse fs2 hx

/-- Directory entries change nothing: the loop over all entries is the loop over the
entries that are not directories. -/
theorem extractLoop_filter (cwd : Loc) (db : Str) (es : List Entry) :
    ∀ (fail : Option Err) (fs : FS),
    extractLoop cwd db es fail fs =
      extractLoop cwd db (es.filter (fun e => !e.header.IsDir)) fail fs := by
  induction es with
  | nil => intro fail fs; rfl
  | cons e rest ih =>
    intro fail fs
    cases hd : e.header.IsDir with
    | true =>
      rw [List.filter_cons_of_neg (by simp [hd]), extractLoop_cons,
        extractEntry_dir cwd db e fs hd]
      exact ih fail fs
    | false =>
      rw [List.filter_cons_of_pos (by simp [hd]), extractLoop_cons, extractLoop_cons]
      cases he : extractEntry cwd db e fs with
      | mk r fse =>
        cases r with
        | some err => rfl
        | none => exact ih fail fse

theorem Close_fs (u : underLayingCloser) (w : World) : (u.Close w).fs = w.fs := by
  unfold underLayingCloser.Close
  generalize u.readers.reverse = rs
  induction rs generalizing w with
  | nil => rfl
  | cons r rest ih =>
    simp only [List.foldl_cons]
    rw [ih]
    by_cases hc : r.isCloser = true <;> simp [hc, World.log]

theorem exists_last_match {α : Type} (P : α → Prop) (l : List α) :
    ∀ a ∈ l, P a → ∃ l1 b l2, l = l1 ++ b :: l2 ∧ P b ∧ ∀ x ∈ l2, ¬ P x := by
  induction l with
  | nil => intro a ha; cases ha
  | cons x xs ih =>
    intro a ha hp
    by_cases hex : ∃ y ∈ xs, P y
    · obtain ⟨y, hy, hpy⟩ := hex
      obtain ⟨l1, b, l2, hl, hb, hlast⟩ := ih y hy hpy
      exact ⟨x :: l1, b, l2, by rw [hl]; rfl, hb, hlast⟩
    · have hx : P x := by
        rcases List.mem_cons.mp ha with h1 | h1
        · rw [← h1]; exact hp
        · exact absurd ⟨a, h1, hp⟩ hex
      exact ⟨[], x, xs, rfl, hx, fun y hy hpy => hex ⟨y, hy, hpy⟩⟩

/-- What a successful `getMetaDB` went through. -/
theorem getMetaDB_ok (h : Host) (w w1 : World) (ns src db : Str)
    (hres : getMetaDB h w ns src = ((db, none), w1)) :
    db = ns ++ ".db".toList ∧
    ∃ reader w0 fs2, getMetaDBTar h w src = (Except.ok reader, w0) ∧
      mkdirAll w0.fs (resolve h.cwd db) = (none, fs2) ∧
      extractLoop h.cwd db (h.tarNewReader reader.Read).entries
        (h.tarNewReader reader.Read).fail fs2 = (none, w1.fs) := by
  unfold getMetaDB at hres
  cases ht : getMetaDBTar h w src with
  | mk r w0 =>
    cases r with
    | error e => simp [ht] at hres
    | ok reader =>
      simp only [ht] at hres
      split at hres
      · simp at hres
      · rename_i fs2 hm
        split at hres
        · simp at hres
        · rename_i fs3 hx
          simp only [Prod.mk.injEq, and_true] at hres
          obtain ⟨hdb, hw⟩ := hres
          subst hdb
          refine ⟨rfl, reader, w0, fs2, rfl, hm, ?_⟩
          rw [← hw, Close_fs]
          exact hx

/-- C4: when `getMetaDB` succeeds it returns `<namespace>.db`, the archive was read to its
end, and for every entry that is not a directory the file at `path.Join` of
`<namespace>.db` and its name holds exactly the payload of the last entry that is not a
directory and maps to that file; an entry that is a directory changes nothing, so that the
file system is the one the other entries alone give. -/
theorem C4_materialize (h : Host) (w w1 : World) (ns src db : Str)
    (hres : getMetaDB h w ns src = ((db, none), w1)) :
    db = ns ++ ".db".toList ∧
    ∃ reader w0, getMetaDBTar h w src = (Except.ok reader, w0) ∧
      (∀ es1 e es2, (h.tarNewReader reader.Read).entries = es1 ++ e :: es2 →
        e.header.IsDir = false →
        (∀ e2 ∈ es2, e2.header.IsDir = false →
          resolve h.cwd (Join [db, e2.header.Name]) ≠ resolve h.cwd (Join [db, e.header.Name])) →
        w1.fs.node (resolve h.cwd (Join [db, e.header.Name])) = some (Node.file e.data)) ∧
      (∀ e ∈ (h.tarNewReader reader.Read).entries, e.header.IsDir = false →
        ∃ es1 e1 es2, (h.tarNewReader reader.Read).entries = es1 ++ e1 :: es2 ∧
          e1.header.IsDir = false ∧
          resolve h.cwd (Join [db, e1.header.Name]) = resolve h.cwd (Join [db, e.header.Name]) ∧
          (∀ e2 ∈ es2, e2.header.IsDir = false →
            resolve h.cwd (Join [db, e2.header.Name]) ≠
              resolve h.cwd (Join [db, e.header.Name])) ∧
          w1.fs.node (resolve h.cwd (Join [db, e.header.Name])) = some (Node.file e1.data)) ∧
      (∀ e fs, e.header.IsDir = true → extractEntry h.cwd db e fs = (none, fs)) ∧
      w1.fs = (extractLoop h.cwd db
        ((h.tarNewReader reader.Read).entries.filter (fun e => !e.header.IsDir)) none
        (mkdirAll w0.fs (resolve h.cwd db)).2).2 := by
  obtain ⟨hdb, reader, w0, fs2, ht, hm, hx⟩ := getMetaDB_ok h w w1 ns src db hres
  refine ⟨hdb, reader, w0, ht, ?_⟩
  have hlast : ∀ es1 e es2, (h.tarNewReader reader.Read).entries = es1 ++ e :: es2 →
      e.header.IsDir = false →
      (∀ e2 ∈ es2, e2.header.IsDir = false →
        resolve h.cwd (Join [db, e2.header.Name]) ≠ resolve h.cwd (Join [db, e.header.Name])) →
      w1.fs.node (resolve h.cwd (Join [db, e.header.Name])) = some (Node.file e.data) := by
    intro es1 e es2 hes hd hne
    rw [hes] at hx
    obtain ⟨fsa, _, hx2⟩ := extractLoop_append h.cwd db es1 (e :: es2) _ fs2 w1.fs hx
    rw [extractLoop_cons] at hx2
    cases he : extractEntry h.cwd db e fsa with
    | mk r fse =>
      cases r with
      | some err => simp [he] at hx2
      | none =>
        simp only [he] at hx2
        have hf := (extractEntry_file h.cwd db e fsa fse hd he).1
        exact extractLoop_file h.cwd db es2 _ fse w1.fs hx2 _ _ hf hne
  refine ⟨hlast, ?_, fun e fs hd => extractEntry_dir h.cwd db e fs hd, ?_⟩
  · intro e he hd
    obtain ⟨es1, e1, es2, hes, ⟨hd1, hloc⟩, hl⟩ :=
      exists_last_match
        (fun x : Entry => x.header.IsDir = false ∧
          resolve h.cwd (Join [db, x.header.Name]) = resolve h.cwd (Join [db, e.header.Name]))
        _ e he ⟨hd, rfl⟩
    have hne : ∀ e2 ∈ es2, e2.header.IsDir = false →
        resolve h.cwd (Join [db, e2.header.Name]) ≠
          resolve h.cwd (Join [db, e.header.Name]) :=
      fun e2 h2 hd2 heq => hl e2 h2 ⟨hd2, heq⟩
    refine ⟨es1, e1, es2, hes, hd1, hloc, hne, ?_⟩
    rw [← hloc]
    exact hlast es1 e1 es2 hes hd1 (fun e2 h2 hd2 => by rw [hloc]; exact hne e2 h2 hd2)
  · rw [hm]
    have hfail : (h.tarNewReader reader.Read).fail = none := by
      have : ∀ (es : List Entry) (fail : Option Err) (fs fs1 : FS),
          extractLoop h.cwd db es fail fs = (none, fs1) → fail = none := by
        intro es
        induction es with
        | nil => intro fail fs fs1 hh; simp only [extractLoop, Prod.mk.injEq] at hh; exact hh.1
        | cons e rest ih =>
          intro fail fs fs1 hh
          rw [extractLoop_cons] at hh
          cases he : extractEntry h.cwd db e fs with
          | mk r fse =>
            cases r with
            | some err => simp [he] at hh
            | none => simp only [he] at hh; exact ih fail fse fs1 hh
      exact this _ _ _ _ hx
    rw [← extractLoop_filter, ← hfail, hx]

/-- C4 on the sample archive: `getMetaDB` returns `ns.db` and the file
`/w/ns.db/a/b/c.txt` holds `hi`. -/
theorem C4_materialize_witness :
    (getMetaDB (sampleHost sampleArchive false false none) sampleWorld "ns".toList
        "x.tar".toList).1 = ("ns.db".toList, none) ∧
    (getMetaDB (sampleHost sampleArchive false false none) sampleWorld "ns".toList
        "x.tar".toList).2.fs.node
        ["c.txt".toList, "b".toList, "a".toList, "ns.db".toList, "w".toList] =
      some (Node.file [104, 105]) ∧
    (getMetaDB (sampleHost sampleDirArchive false false none) sampleWorld "ns".toList
        "x.tar".toList).2.fs.node ["a".toList, "ns.db".toList, "w".toList] = none := by
  obtain ⟨_, reader, w0, _, hlast, _, _, _⟩ :=
    C4_materialize (sampleHost sampleArchive false false none) sampleWorld
      (getMetaDB (sampleHost sampleArchive false false none) sampleWorld "ns".toList
        "x.tar".toList).2 "ns".toList "x.tar".toList "ns.db".toList rfl
  refine ⟨rfl, ?_, by rfl⟩
  exact hlast sampleDirArchive.entries
    { header := { Name := "a/b/c.txt".toList, IsDir := false }, data := [104, 105],
      readErr := none } [] rfl rfl (by intro e2 h2; cases h2)

/-! ## Paths -/

theorem splitOn_of_not_mem (d : Char) : ∀ s : Str, d ∉ s → s.splitOn d = [s]
  | [], _ => List.splitOn_nil d
  | c :: cs, h => by
    have hc : c ≠ d := fun hh => h (by rw [hh]; exact List.mem_cons_self _ _)
    rw [splitOn_cons, if_neg hc,
      splitOn_of_not_mem d cs (fun hh => h (List.mem_cons_of_mem _ hh))]
    rfl

theorem modifyHead_append {α : Type} (f : α → α) (l1 l2 : List α) (h : l1 ≠ []) :
    (l1 ++ l2).modifyHead f = l1.modifyHead f ++ l2 := by
  cases l1 with
  | nil => exact absurd rfl h
  | cons a t => rfl

theorem splitOn_append_sep (d : Char) (b : Str) : ∀ a : Str,
    (a ++ d :: b).splitOn d = a.splitOn d ++ b.splitOn d
  | [] => by
    rw [List.nil_append, splitOn_cons, if_pos rfl, List.splitOn_nil]
    rfl
  | c :: cs => by
    rw [List.cons_append, splitOn_cons, splitOn_cons, splitOn_append_sep d b cs]
    by_cases hc : c = d
    · simp only [hc, if_true, List.cons_append]
    · simp only [hc, if_false]
      exact modifyHead_append _ _ _ (splitOn_ne_nil d cs)

theorem splitOn_append_tail (d : Char) (b : Str) (hb : d ∉ b) : ∀ a : Str,
    ∃ init tl, a.splitOn d = init ++ [tl] ∧ (a ++ b).splitOn d = init ++ [tl ++ b]
  | [] => ⟨[], [], by rw [List.splitOn_nil]; rfl, by
      rw [List.nil_append, splitOn_of_not_mem d b hb]; rfl⟩
  | c :: cs => by
    obtain ⟨init, tl, h1, h2⟩ := splitOn_append_tail d b hb cs
    rw [List.cons_append, splitOn_cons, splitOn_cons, h1, h2]
    by_cases hc : c = d
    · simp only [hc, if_true]
      exact ⟨[] :: init, tl, rfl, rfl⟩
    · simp only [hc, if_false]
      cases init with
      | nil => exact ⟨[], c :: tl, rfl, rfl⟩
      | cons i rest => exact ⟨(c :: i) :: rest, tl, rfl, rfl⟩

theorem not_mem_of_mem_splitOn (d : Char) : ∀ (x s : Str), s ∈ x.splitOn d → d ∉ s
  | [], s, h => by
    rw [List.splitOn_nil] at h
    simp only [List.mem_singleton] at h
    rw [h]; exact List.not_mem_nil d
  | c :: cs, s, h => by
    rw [splitOn_cons] at h
    by_cases hc : c = d
    · simp only [hc, if_true, List.mem_cons] at h
      rcases h with h | h
      · rw [h]; exact List.not_mem_nil d
      · exact not_mem_of_mem_splitOn d cs s h
    · simp only [hc, if_false] at h
      cases hs : cs.splitOn d with
      | nil => exact absurd hs (splitOn_ne_nil d cs)
      | cons a t =>
        rw [hs] at h
        simp only [List.modifyHead_cons, List.mem_cons] at h
        rcases h with h | h
        · rw [h]
          intro hm
          rcases List.mem_cons.mp hm with h1 | h1
          · exact hc h1.symm
          · exact not_mem_of_mem_splitOn d cs a (by rw [hs]; exact List.mem_cons_self _ _) h1
        · exact not_mem_of_mem_splitOn d cs s (by rw [hs]; exact List.mem_cons_of_mem _ h)

theorem joinSlash_cons_cons (s t : Str) (rest : List Str) :
    joinSlash (s :: t :: rest) = s ++ '/' :: joinSlash (t :: rest) := by
  simp [joinSlash, List.intercalate, List.intersperse]

theorem joinSlash_singleton (s : Str) : joinSlash [s] = s := by
  simp [joinSlash, List.intercalate, List.intersperse]

theorem splitOn_joinSlash : ∀ (l : List Str), l ≠ [] → (∀ s ∈ l, '/' ∉ s) →
    (joinSlash l).splitOn '/' = l
  | [], h, _ => absurd rfl h
  | [s], _, hs => by
    rw [joinSlash_singleton]
    exact splitOn_of_not_mem '/' s (hs s (List.mem_cons_self _ _))
  | s :: t :: rest, _, hs => by
    rw [joinSlash_cons_cons, splitOn_append_sep,
      splitOn_of_not_mem '/' s (hs s (List.mem_cons_self _ _)),
      splitOn_joinSlash (t :: rest) (by simp) (fun x hx => hs x (List.mem_cons_of_mem _ hx))]
    rfl

theorem joinSlash_append (a b : List Str) (ha : a ≠ []) (hb : b ≠ []) :
    joinSlash (a ++ b) = joinSlash a ++ '/' :: joinSlash b := by
  induction a with
  | nil => exact absurd rfl ha
  | cons s t ih =>
    cases t with
    | nil =>
      cases b with
      | nil => exact absurd rfl hb
      | cons b1 bs => rw [List.singleton_append, joinSlash_cons_cons, joinSlash_singleton]
    | cons t1 ts =>
      rw [List.cons_append, List.cons_append, joinSlash_cons_cons, joinSlash_cons_cons,
        ← List.cons_append, ih (by simp)]
      simp

theorem joinSlash_ne_nil (l : List Str) (hl : l ≠ []) (hs : ∀ s ∈ l, s ≠ []) :
    joinSlash l ≠ [] := by
  cases l with
  | nil => exact absurd rfl hl
  | cons s t =>
    cases t with
    | nil => rw [joinSlash_singleton]; exact hs s (List.mem_cons_self _ _)
    | cons t1 ts => rw [joinSlash_cons_cons]; simp

/-- Without `..` the loop of `path.Clean` keeps the normal elements, in order. -/
theorem foldl_cleanStep (r : Bool) : ∀ (segs out : List Str), ['.', '.'] ∉ segs →
    segs.foldl (cleanStep r) out =
      (segs.filter (fun s => s ≠ [] ∧ s ≠ ['.'])).reverse ++ out
  | [], out, _ => rfl
  | s :: t, out, h => by
    have hs : s ≠ ['.', '.'] := fun hh => h (by rw [hh]; exact List.mem_cons_self _ _)
    have ht : ['.', '.'] ∉ t := fun hh => h (List.mem_cons_of_mem _ hh)
    rw [List.foldl_cons, foldl_cleanStep r t _ ht]
    by_cases hn : s = [] ∨ s = ['.']
    · have : ¬ (s ≠ [] ∧ s ≠ ['.']) := by tauto
      simp [cleanStep, hn, List.filter_cons, this]
    · have : s ≠ [] ∧ s ≠ ['.'] := by tauto
      simp [cleanStep, hn, hs, List.filter_cons, this]

/-- A `..` that was kept stays in the output of `path.Clean`. -/
theorem cleanStep_mem_dotdot (r : Bool) (out : List Str) (seg : Str)
    (h : ['.', '.'] ∈ out) : ['.', '.'] ∈ cleanStep r out seg := by
  unfold cleanStep
  by_cases h1 : seg = [] ∨ seg = ['.']
  · simp only [h1, if_true]; exact h
  · simp only [h1, if_false]
    by_cases h2 : seg = ['.', '.']
    · simp only [h2, if_true]
      cases out with
      | nil => cases h
      | cons top below =>
        by_cases h3 : top = ['.', '.']
        · simp only [h3, if_true]
          exact List.mem_cons_self _ _
        · simp only [h3, if_false]
          rcases List.mem_cons.mp h with h4 | h4
          · exact absurd h4.symm h3
          · exact h4
    · simp only [h2, if_false]
      exact List.mem_cons_of_mem _ h

theorem foldl_mem_dotdot (r : Bool) : ∀ (segs out : List Str), ['.', '.'] ∈ out →
    ['.', '.'] ∈ segs.foldl (cleanStep r) out
  | [], _, h => h
  | s :: t, out, h => by
    rw [List.foldl_cons]
    exact foldl_mem_dotdot r t _ (cleanStep_mem_dotdot r out s h)

/-- While no `..` climbs above the elements `R`, the loop of `path.Clean` leaves what is
below them untouched, rooted or not. -/
theorem foldl_cleanStep_append (r : Bool) (S : List Str) : ∀ (segs R : List Str),
    ['.', '.'] ∉ R → ['.', '.'] ∉ segs.foldl (cleanStep false) R →
    segs.foldl (cleanStep r) (R ++ S) = segs.foldl (cleanStep false) R ++ S
  | [], _, _, _ => rfl
  | s :: t, R, hR, hfin => by
    rw [List.foldl_cons] at hfin ⊢
    rw [List.foldl_cons]
    have hstep : ['.', '.'] ∉ cleanStep false R s :=
      fun hh => hfin (foldl_mem_dotdot false t _ hh)
    have heq : cleanStep r (R ++ S) s = cleanStep false R s ++ S := by
      unfold cleanStep at hstep ⊢
      by_cases h1 : s = [] ∨ s = ['.']
      · simp only [h1, if_true]
      · simp only [h1, if_false] at hstep ⊢
        by_cases h2 : s = ['.', '.']
        · simp only [h2, if_true] at hstep ⊢
          cases R with
          | nil =>
            simp at hstep
          | cons top below =>
            have h3 : top ≠ ['.', '.'] := fun hh => hR (by rw [hh]; exact List.mem_cons_self _ _)
            simp only [List.cons_append, h3, if_false]
        · simp only [h2, if_false, List.cons_append]
    rw [heq]
    exact foldl_cleanStep_append r S t _ hstep hfin

/-- What `path.Clean` keeps are elements of the path that are neither empty nor `.`. -/
theorem mem_foldl_cleanStep (r : Bool) : ∀ (segs out : List Str) (s : Str),
    s ∈ segs.foldl (cleanStep r) out → s ∈ out ∨ (s ∈ segs ∧ s ≠ [] ∧ s ≠ ['.'])
  | [], _, _, h => Or.inl h
  | a :: t, out, s, h => by
    rw [List.foldl_cons] at h
    rcases mem_foldl_cleanStep r t _ s h with h1 | ⟨h1, h2, h3⟩
    · unfold cleanStep at h1
      by_cases c1 : a = [] ∨ a = ['.']
      · simp only [c1, if_true] at h1; exact Or.inl h1
      · simp only [c1, if_false] at h1
        by_cases c2 : a = ['.', '.']
        · simp only [c2, if_true] at h1
          cases out with
          | nil =>
            by_cases hr : r = true
            · simp [hr] at h1
            · simp only [hr, Bool.false_eq_true, if_false, List.mem_singleton] at h1
              right
              refine ⟨by rw [h1, c2]; exact List.mem_cons_self _ _, by rw [h1]; simp,
                by rw [h1]; simp⟩
          | cons top below =>
            by_cases c3 : top = ['.', '.']
            · simp only [c3, if_true, List.mem_cons] at h1
              rcases h1 with h1 | h1
              · right
                refine ⟨by rw [h1, c2]; exact List.mem_cons_self _ _, by rw [h1]; simp,
                  by rw [h1]; simp⟩
              · left; rw [c3]; exact List.mem_cons.mpr h1
            · simp only [c3, if_false] at h1
              exact Or.inl (List.mem_cons_of_mem _ h1)
        · simp only [c2, if_false, List.mem_cons] at h1
          rcases h1 with h1 | h1
          · right
            have c1a : a ≠ [] ∧ a ≠ ['.'] := by tauto
            exact ⟨by rw [h1]; exact List.mem_cons_self _ _, by rw [h1]; exact c1a.1,
              by rw [h1]; exact c1a.2⟩
          · exact Or.inl h1
    · exact Or.inr ⟨List.mem_cons_of_mem _ h1, h2, h3⟩

theorem mem_cleanRel (x s : Str) (hs : s ∈ cleanRel x) :
    s ∈ x.splitOn '/' ∧ s ≠ [] ∧ s ≠ ['.'] := by
  unfold cleanRel relStack at hs
  rcases mem_foldl_cleanStep false _ [] s (List.mem_reverse.mp hs) with h | h
  · cases h
  · exact h

theorem cleanRel_eq_nil (x : Str) : cleanRel x = [] ↔ relStack x = [] := by
  unfold cleanRel
  exact List.reverse_eq_nil_iff

/-- A name without any `..` element does not climb. -/
theorem noClimb_of_noDotDot (x : Str) (hx : noDotDot x) : noClimb x := by
  unfold noClimb relStack
  rw [foldl_cleanStep false _ [] hx, List.append_nil]
  intro hm
  exact hx (List.mem_filter.mp (List.mem_reverse.mp hm)).1

theorem Clean_of_noClimb (x : Str) (hx : noClimb x) (hne : x ≠ []) :
    Clean x =
      if x.head? = some '/' then '/' :: joinSlash (cleanRel x)
      else if cleanRel x = [] then ['.'] else joinSlash (cleanRel x) := by
  have hfold := foldl_cleanStep_append (decide (x.head? = some '/')) [] (x.splitOn '/') []
    (List.not_mem_nil _) hx
  simp only [List.append_nil] at hfold
  unfold Clean
  simp only [hne, if_false, hfold]
  rfl

/-- The last element of `<namespace>.db` is kept by `path.Clean`. -/
theorem db_stack_ne_nil (ns : Str) (r : Bool) :
    ((ns ++ ".db".toList).splitOn '/').foldl (cleanStep r) [] ≠ [] := by
  obtain ⟨init, tl, _, h2⟩ := splitOn_append_tail '/' ".db".toList (by decide) ns
  rw [h2, List.foldl_append, List.foldl_cons, List.foldl_nil]
  have h1 : tl ++ ".db".toList ≠ [] := by simp
  have hlen : (tl ++ ".db".toList).length ≥ 3 := by simp
  have h3 : tl ++ ".db".toList ≠ ['.'] := by
    intro hh; rw [hh] at hlen; simp at hlen
  have h4 : tl ++ ".db".toList ≠ ['.', '.'] := by
    intro hh; rw [hh] at hlen; simp at hlen
  unfold cleanStep
  simp only [h1, h3, h4, or_self, if_false]
  exact List.cons_ne_nil _ _

theorem Clean_append (db x : Str) (hdb : db ≠ [])
    (hS : ∀ r, (db.splitOn '/').foldl (cleanStep r) [] ≠ []) (hx : noClimb x) :
    Clean (db ++ '/' :: x) =
      Clean db ++ (if cleanRel x = [] then [] else '/' :: joinSlash (cleanRel x)) := by
  have hhead : (db ++ '/' :: x).head? = db.head? := by
    cases db with
    | nil => exact absurd rfl hdb
    | cons c cs => rfl
  have hne : db ++ '/' :: x ≠ [] := by
    cases db with
    | nil => exact absurd rfl hdb
    | cons c cs => simp
  have hfold := foldl_cleanStep_append (decide (db.head? = some '/'))
    ((db.splitOn '/').foldl (cleanStep (decide (db.head? = some '/'))) []) (x.splitOn '/') []
    (List.not_mem_nil _) hx
  rw [List.nil_append] at hfold
  unfold Clean
  simp only [hne, hdb, if_false, hhead]
  rw [splitOn_append_sep, List.foldl_append, hfold, List.reverse_append]
  have hS1 := hS (decide (db.head? = some '/'))
  have hr : ((db.splitOn '/').foldl (cleanStep (decide (db.head? = some '/'))) []).reverse ≠
      [] := by
    simpa using hS1
  generalize ((db.splitOn '/').foldl (cleanStep (decide (db.head? = some '/'))) []).reverse = out
    at hr ⊢
  have hrel : ((x.splitOn '/').foldl (cleanStep false) []).reverse = cleanRel x := rfl
  rw [hrel]
  by_cases hN : cleanRel x = []
  · simp only [hN, List.append_nil, if_true]
  · have ho : out ++ cleanRel x ≠ [] := by simp [hr]
    simp only [hN, if_false, ho, hr]
    rw [joinSlash_append _ _ hr hN]
    by_cases hrt : db.head? = some '/'
    · simp only [hrt, if_true, List.cons_append]
    · simp only [hrt, if_false]

/-- The path of an entry whose name does not climb, under `<namespace>.db`: the cleaned
`<namespace>.db`, then the cleaned name. -/
theorem Join_db (ns x : Str) (hx : noClimb x) :
    Join [ns ++ ".db".toList, x] =
      Clean (ns ++ ".db".toList) ++
        (if cleanRel x = [] then [] else '/' :: joinSlash (cleanRel x)) := by
  have hdb : ns ++ ".db".toList ≠ [] := by simp
  by_cases hxe : x = []
  · subst hxe
    have h0 : cleanRel [] = [] := by decide
    simp only [h0, if_true, List.append_nil]
    unfold Join
    simp [hdb, joinSlash_singleton]
  · unfold Join
    simp only [ne_eq, hdb, not_false_eq_true, decide_True, List.filter_cons_of_pos, hxe,
      List.filter_nil, List.cons_ne_nil, if_false]
    rw [joinSlash_cons_cons, joinSlash_singleton]
    exact Clean_append _ x hdb (db_stack_ne_nil ns) hx

/-- The directory part of a name that does not climb does not climb either. -/
theorem noClimb_rdropWhile (name : Str) (hn : noClimb name) :
    noClimb (name.rdropWhile (fun c => c ≠ '/')) := by
  by_cases hp : name.rdropWhile (fun c => c ≠ '/') = []
  · rw [hp]; decide
  · have hlast := List.rdropWhile_last_not (fun c => decide (c ≠ '/')) name hp
    simp only [ne_eq, decide_not, Bool.not_eq_true', decide_eq_false_iff_not,
      Decidable.not_not] at hlast
    obtain ⟨suf, hsuf⟩ := List.rdropWhile_prefix (fun c => decide (c ≠ '/')) (l := name)
    have hq := List.dropLast_append_getLast hp
    simp only [ne_eq, decide_not] at hq hsuf hlast ⊢
    rw [hlast] at hq
    rw [← hq] at hsuf ⊢
    rw [List.append_assoc, List.singleton_append] at hsuf
    intro hm
    apply hn
    unfold relStack at hm ⊢
    rw [← hsuf, splitOn_append_sep, List.foldl_append]
    rw [splitOn_append_sep, List.foldl_append, List.splitOn_nil] at hm
    have hm1 : ['.', '.'] ∈ List.foldl (cleanStep false) []
        (List.splitOn '/' (List.rdropWhile (fun c => !decide (c = '/')) name).dropLast) := by
      simpa [cleanStep] using hm
    exact foldl_mem_dotdot false _ _ hm1

theorem noDotDot_Dir (name : Str) (hn : noClimb name) : noDotDot (Dir name) := by
  have hpre := noClimb_rdropWhile name hn
  have hN : ∀ s ∈ cleanRel (name.rdropWhile (fun c => c ≠ '/')),
      s ≠ ['.', '.'] ∧ '/' ∉ s := by
    intro s hs
    have hmem := (mem_cleanRel _ s hs).1
    refine ⟨fun hh => hpre ?_, not_mem_of_mem_splitOn '/' _ s hmem⟩
    rw [← hh]
    exact List.mem_reverse.mp hs
  unfold Dir
  by_cases hp : name.rdropWhile (fun c => c ≠ '/') = []
  · rw [hp]; decide
  · rw [Clean_of_noClimb _ hpre hp]
    generalize cleanRel (name.rdropWhile (fun c => c ≠ '/')) = N at hN
    have hjoin : N ≠ [] → noDotDot (joinSlash N) := by
      intro hne hm
      rw [splitOn_joinSlash N hne (fun s hs => (hN s hs).2)] at hm
      exact (hN _ hm).1 rfl
    by_cases hr : (name.rdropWhile (fun c => c ≠ '/')).head? = some '/'
    · simp only [hr, if_true]
      intro hm
      have hcons : ('/' :: joinSlash N).splitOn '/' = [] :: (joinSlash N).splitOn '/' := by
        rw [splitOn_cons, if_pos rfl]
      rw [hcons] at hm
      rcases List.mem_cons.mp hm with h1 | h1
      · cases h1
      · by_cases hne : N = []
        · rw [hne] at h1
          have : joinSlash [] = [] := rfl
          rw [this, List.splitOn_nil] at h1
          simp at h1
        · exact hjoin hne h1
    · simp only [hr, if_false]
      by_cases hne : N = []
      · simp only [hne, if_true]; decide
      · simp only [hne, if_false]; exact hjoin hne

theorem atOrUnder_Join_db (ns x : Str) (hx : noClimb x) :
    (cleanRel x = [] → Join [ns ++ ".db".toList, x] = Clean (ns ++ ".db".toList)) ∧
    (cleanRel x ≠ [] →
      Join [ns ++ ".db".toList, x] =
        Clean (ns ++ ".db".toList) ++ '/' :: joinSlash (cleanRel x) ∧
      underPath (Clean (ns ++ ".db".toList)) (Join [ns ++ ".db".toList, x])) := by
  rw [Join_db ns x hx]
  refine ⟨fun h0 => by simp [h0], fun h1 => ?_⟩
  simp only [h1, if_false, true_and]
  exact ⟨joinSlash (cleanRel x),
    joinSlash_ne_nil _ h1 (fun s hs => (mem_cleanRel x s hs).2.1), rfl⟩

theorem length_le_of_mem_splitOn (d : Char) : ∀ (x s : Str), s ∈ x.splitOn d →
    s.length ≤ x.length
  | [], s, h => by
    rw [List.splitOn_nil] at h
    simp only [List.mem_singleton] at h
    rw [h]
  | c :: cs, s, h => by
    rw [splitOn_cons] at h
    by_cases hc : c = d
    · simp only [hc, if_true, List.mem_cons] at h
      rcases h with h | h
      · rw [h]; simp
      · have := length_le_of_mem_splitOn d cs s h
        simp only [List.length_cons]; omega
    · simp only [hc, if_false] at h
      cases hs : cs.splitOn d with
      | nil => exact absurd hs (splitOn_ne_nil d cs)
      | cons a t =>
        rw [hs] at h
        simp only [List.modifyHead_cons, List.mem_cons] at h
        rcases h with h | h
        · have := length_le_of_mem_splitOn d cs a (by rw [hs]; exact List.mem_cons_self _ _)
          rw [h]; simp only [List.length_cons]; omega
        · have := length_le_of_mem_splitOn d cs s (by rw [hs]; exact List.mem_cons_of_mem _ h)
          simp only [List.length_cons]; omega

/-- Once a `..` of the name climbs above its root, the element `db` below the name is
removed and does not come back, as long as the name does not spell it. -/
theorem climb_removes (db : Str) (hdb : db ≠ ['.', '.']) : ∀ (segs R : List Str),
    db ∉ segs → ['.', '.'] ∉ R → db ∉ R → ['.', '.'] ∈ segs.foldl (cleanStep false) R →
    db ∉ segs.foldl (cleanStep false) (R ++ [db])
  | [], R, _, hR, _, hc => absurd hc hR
  | s :: t, R, hsegs, hR, hdR, hc => by
    have hs : s ≠ db := fun hh => hsegs (by rw [hh]; exact List.mem_cons_self _ _)
    have ht : db ∉ t := fun hh => hsegs (List.mem_cons_of_mem _ hh)
    rw [List.foldl_cons] at hc ⊢
    by_cases h1 : s = [] ∨ s = ['.']
    · have e1 : cleanStep false R s = R := by simp only [cleanStep, h1, if_true]
      have e2 : cleanStep false (R ++ [db]) s = R ++ [db] := by
        simp only [cleanStep, h1, if_true]
      rw [e1] at hc
      rw [e2]
      exact climb_removes db hdb t R ht hR hdR hc
    · by_cases h2 : s = ['.', '.']
      · cases R with
        | nil =>
          have e2 : cleanStep false ([] ++ [db]) s = [] := by
            subst h2; simp [cleanStep, hdb]
          rw [e2]
          intro hm
          rcases mem_foldl_cleanStep false t [] db hm with h3 | h3
          · cases h3
          · exact ht h3.1
        | cons top below =>
          have h3 : top ≠ ['.', '.'] := fun hh => hR (by rw [hh]; exact List.mem_cons_self _ _)
          have e1 : cleanStep false (top :: below) s = below := by
            subst h2; simp [cleanStep, h3]
          have e2 : cleanStep false (top :: below ++ [db]) s = below ++ [db] := by
            subst h2; simp [cleanStep, h3]
          rw [e1] at hc
          rw [e2]
          exact climb_removes db hdb t below ht
            (fun hh => hR (List.mem_cons_of_mem _ hh))
            (fun hh => hdR (List.mem_cons_of_mem _ hh)) hc
      · have e1 : cleanStep false R s = s :: R := by
          simp only [cleanStep, h1, h2, if_false]
        have e2 : cleanStep false (R ++ [db]) s = (s :: R) ++ [db] := by
          simp only [cleanStep, h1, h2, if_false, List.cons_append]
        rw [e1] at hc
        rw [e2]
        refine climb_removes db hdb t (s :: R) ht ?_ ?_ hc
        · intro hh
          rcases List.mem_cons.mp hh with h3 | h3
          · exact h2 h3.symm
          · exact hR h3
        · intro hh
          rcases List.mem_cons.mp hh with h3 | h3
          · exact hs h3.symm
          · exact hdR h3

/-- A name that climbs leaves the meta directory of some namespace. -/
theorem climb_escapes (name : Str) (hc : ¬ noClimb name) :
    ∃ ns : Str, ¬ atOrUnder (Clean (ns ++ ".db".toList)) (Join [ns ++ ".db".toList, name]) := by
  have hname : name ≠ [] := by
    intro hh; apply hc; rw [hh]; decide
  refine ⟨List.replicate name.length 'z', ?_⟩
  generalize hdbdef : List.replicate name.length 'z' ++ ".db".toList = db
  have hlen : db.length = name.length + 3 := by rw [← hdbdef]; simp
  have hslash : '/' ∉ db := by
    rw [← hdbdef]
    intro hm
    rcases List.mem_append.mp hm with h1 | h1
    · have := List.eq_of_mem_replicate h1
      exact absurd this (by decide)
    · exact absurd h1 (by decide)
  have hdb0 : db ≠ [] := by intro hh; rw [hh] at hlen; simp at hlen
  have hdb1 : db ≠ ['.'] := by intro hh; rw [hh] at hlen; simp at hlen
  have hdb2 : db ≠ ['.', '.'] := by intro hh; rw [hh] at hlen; simp at hlen
  have hsegs : db ∉ name.splitOn '/' := by
    intro hm
    have := length_le_of_mem_splitOn '/' name db hm
    omega
  have hhead : db.head? ≠ some '/' := by
    cases db with
    | nil => simp
    | cons c cs =>
      intro hh
      simp only [List.head?_cons, Option.some.injEq] at hh
      exact hslash (by rw [hh]; exact List.mem_cons_self _ _)
  have hstep : cleanStep false [] db = [db] := by
    simp only [cleanStep, hdb0, hdb1, hdb2, or_self, if_false]
  have hClean : Clean db = db := by
    unfold Clean
    simp only [hdb0, if_false, hhead, decide_False, splitOn_of_not_mem '/' db hslash,
      List.foldl_cons, List.foldl_nil, hstep, List.reverse_cons, List.reverse_nil,
      List.nil_append, List.cons_ne_nil, joinSlash_singleton]
  have hJoin : Join [db, name] = Clean (db ++ '/' :: name) := by
    unfold Join
    simp only [ne_eq, hdb0, not_false_eq_true, decide_True, List.filter_cons_of_pos, hname,
      List.filter_nil, List.cons_ne_nil, if_false]
    rw [joinSlash_cons_cons, joinSlash_singleton]
  have hcl : ['.', '.'] ∈ (name.splitOn '/').foldl (cleanStep false) [] := by
    by_contra hh; exact hc hh
  have hF := climb_removes db hdb2 (name.splitOn '/') [] hsegs (List.not_mem_nil _)
    (List.not_mem_nil _) hcl
  rw [List.nil_append] at hF
  have hFslash : ∀ s ∈ ((name.splitOn '/').foldl (cleanStep false) [db]).reverse, '/' ∉ s := by
    intro s hs
    rcases mem_foldl_cleanStep false _ _ s (List.mem_reverse.mp hs) with h1 | h1
    · simp only [List.mem_singleton] at h1; rw [h1]; exact hslash
    · exact not_mem_of_mem_splitOn '/' name s h1.1
  have hhead2 : (db ++ '/' :: name).head? ≠ some '/' := by
    cases db with
    | nil => exact absurd rfl hdb0
    | cons c cs => exact hhead
  have hne2 : db ++ '/' :: name ≠ [] := by
    cases db with
    | nil => exact absurd rfl hdb0
    | cons c cs => simp
  have hp : Clean (db ++ '/' :: name) =
      if ((name.splitOn '/').foldl (cleanStep false) [db]).reverse = [] then ['.']
      else joinSlash ((name.splitOn '/').foldl (cleanStep false) [db]).reverse := by
    unfold Clean
    simp only [hne2, if_false, hhead2, decide_False, splitOn_append_sep,
      splitOn_of_not_mem '/' db hslash, List.foldl_append, List.foldl_cons, List.foldl_nil,
      hstep]
  generalize (name.splitOn '/').foldl (cleanStep false) [db] = F at hF hFslash hp
  have hdbO : db ∉ F.reverse := fun hm => hF (List.mem_reverse.mp hm)
  rw [hClean, hJoin, hp]
  by_cases hO : F.reverse = []
  · simp only [hO, if_true]
    rintro (h1 | ⟨rest, _, h1⟩)
    · exact hdb1 h1.symm
    · have := congrArg List.length h1
      simp at this
      omega
  · simp only [hO, if_false]
    have hsp := splitOn_joinSlash F.reverse hO hFslash
    rintro (h1 | ⟨rest, _, h1⟩)
    · rw [h1, splitOn_of_not_mem '/' db hslash] at hsp
      exact hdbO (by rw [← hsp]; exact List.mem_cons_self _ _)
    · rw [h1, splitOn_append_sep, splitOn_of_not_mem '/' db hslash] at hsp
      exact hdbO (by rw [← hsp]; exact List.mem_cons_self _ _)

/-- C10, amended: the names whose `..` elements never climb above the root of the name,
which are the names that `path.Clean` leaves without `..` when read as relative paths
(names without `..`, names like `a/../b`, with a leading `/` or not), are exactly the names
whose file path is, for every namespace, the cleaned `<namespace>.db` or that followed by
`/` and further elements. For such a name and every namespace the path at which
`getMetaDB` makes the parent directory is the cleaned `<namespace>.db` or under it, and
the path at which it creates the file is the cleaned `<namespace>.db` followed by `/` and
the cleaned name, or the cleaned `<namespace>.db` itself when the cleaned name is empty. -/
theorem C10_paths_under_meta (hdr : Header) :
    (noClimb hdr.Name ↔
      ∀ ns : Str, atOrUnder (Clean (ns ++ ".db".toList)) (entryFile (ns ++ ".db".toList) hdr)) ∧
    (noClimb hdr.Name → ∀ ns : Str,
      atOrUnder (Clean (ns ++ ".db".toList)) (entryDir (ns ++ ".db".toList) hdr) ∧
      (cleanRel hdr.Name ≠ [] →
        entryFile (ns ++ ".db".toList) hdr =
          Clean (ns ++ ".db".toList) ++ '/' :: joinSlash (cleanRel hdr.Name) ∧
        underPath (Clean (ns ++ ".db".toList)) (entryFile (ns ++ ".db".toList) hdr)) ∧
      (cleanRel hdr.Name = [] →
        entryFile (ns ++ ".db".toList) hdr = Clean (ns ++ ".db".toList))) := by
  have hfile : noClimb hdr.Name → ∀ ns : Str,
      atOrUnder (Clean (ns ++ ".db".toList)) (entryFile (ns ++ ".db".toList) hdr) := by
    intro hn ns
    have hf := atOrUnder_Join_db ns hdr.Name hn
    unfold entryFile
    by_cases h0 : cleanRel hdr.Name = []
    · exact Or.inl (hf.1 h0)
    · exact Or.inr (hf.2 h0).2
  refine ⟨⟨hfile, ?_⟩, ?_⟩
  · intro hall
    by_contra hc
    obtain ⟨ns, hns⟩ := climb_escapes hdr.Name hc
    exact hns (hall ns)
  · intro hn ns
    have hf := atOrUnder_Join_db ns hdr.Name hn
    have hd := atOrUnder_Join_db ns (Dir hdr.Name)
      (noClimb_of_noDotDot _ (noDotDot_Dir hdr.Name hn))
    refine ⟨?_, hf.2, hf.1⟩
    unfold entryDir
    by_cases h0 : cleanRel (Dir hdr.Name) = []
    · exact Or.inl (hd.1 h0)
    · exact Or.inr (hd.2 h0).2

/-- C10, amended, on the names `a/../b`, `a/b/../c` and `/etc/x` under the namespace `ns`:
none climbs, and the files are created at `ns.db/b`, `ns.db/a/c` and `ns.db/etc/x`, under
`ns.db`; the name `../../x` climbs. -/
theorem C10_paths_under_meta_witness :
    underPath "ns.db".toList
      (entryFile "ns.db".toList { Name := "a/../b".toList, IsDir := false }) ∧
    entryFile "ns.db".toList { Name := "a/../b".toList, IsDir := false } = "ns.db/b".toList ∧
    underPath "ns.db".toList
      (entryFile "ns.db".toList { Name := "a/b/../c".toList, IsDir := false }) ∧
    entryFile "ns.db".toList { Name := "a/b/../c".toList, IsDir := false } =
      "ns.db/a/c".toList ∧
    entryDir "ns.db".toList { Name := "a/b/../c".toList, IsDir := false } =
      "ns.db/a".toList ∧
    underPath "ns.db".toList
      (entryFile "ns.db".toList { Name := "/etc/x".toList, IsDir := false }) ∧
    entryFile "ns.db".toList { Name := "/etc/x".toList, IsDir := false } =
      "ns.db/etc/x".toList ∧
    ¬ noClimb "../../x".toList :=
  ⟨((C10_paths_under_meta { Name := "a/../b".toList, IsDir := false }).2 (by decide)
      "ns".toList).2.1 (by decide) |>.2,
   by decide,
   ((C10_paths_under_meta { Name := "a/b/../c".toList, IsDir := false }).2 (by decide)
      "ns".toList).2.1 (by decide) |>.2,
   by decide, by decide,
   ((C10_paths_under_meta { Name := "/etc/x".toList, IsDir := false }).2 (by decide)
      "ns".toList).2.1 (by decide) |>.2,
   by decide, by decide⟩

/-- C10 as stated fails: for the entry name `../../x` under the namespace `ns` the file
path is `../x`, which is not `ns.db` followed by `/` and further elements, and on the
sample host, working in `/w`, `getMetaDB` succeeds and creates the file `/x`, outside
`/w/ns.db`. -/
theorem C10_counterexample :
    entryFile "ns.db".toList { Name := "../../x".toList, IsDir := false } = "../x".toList ∧
    Clean "ns.db".toList = "ns.db".toList ∧
    ¬ underPath (Clean "ns.db".toList)
      (entryFile "ns.db".toList { Name := "../../x".toList, IsDir := false }) ∧
    (getMetaDB (sampleHost sampleEscapeArchive false false none) sampleWorld "ns".toList
        "x.tar".toList).1 = ("ns.db".toList, none) ∧
    sampleWorld.fs.node ["x".toList] = none ∧
    (getMetaDB (sampleHost sampleEscapeArchive false false none) sampleWorld "ns".toList
        "x.tar".toList).2.fs.node ["x".toList] = some (Node.file [104, 105]) ∧
    ¬ (resolve ["w".toList] "ns.db".toList <:+ ["x".toList]) := by
  refine ⟨by decide, by decide, ?_, by rfl, by rfl, by rfl, by decide⟩
  rintro ⟨rest, _, hrest⟩
  have h1 : entryFile "ns.db".toList { Name := "../../x".toList, IsDir := false } =
      "../x".toList := by decide
  have h2 : Clean "ns.db".toList = "ns.db".toList := by decide
  rw [h1, h2] at hrest
  cases hrest

end ZBundle
